import Mathlib

/-!
Verification of the deterministic financial-health scoring engine of the
Pixel Pirates repository (server.js and public/gemini-service.js).

JavaScript numbers are modelled as extended rationals: `JSNum` is NaN, +∞,
-∞ or a finite rational.  All comparisons follow IEEE semantics (every
comparison with NaN is false); division, multiplication and subtraction
follow the JS special-value rules.  The finite case uses exact rational
arithmetic; every property proved here depends only on comparisons that are
robust under this idealisation (the repository's decision thresholds are
short decimal literals).  Strings are modelled as `List Char` (JS strings of
Unicode code points; the source regexes carry the /u flag), wrapped in
`String` at the interfaces.
-/

/-- Model of a JavaScript number: NaN, +Infinity, -Infinity or a finite
value (modelled as an exact rational). -/
inductive JSNum where
  | nan : JSNum
  | inf : JSNum
  | ninf : JSNum
  | fin : ℚ → JSNum
deriving DecidableEq, Repr

namespace JSNum

/-- Shorthand for a finite JS number. -/
def jq (q : ℚ) : JSNum := .fin q

/-- `Number.isFinite`. -/
def isFinite : JSNum → Bool
  | .fin _ => true
  | _ => false

/-- The JS coercion `x || 0`: NaN and 0 are falsy numbers, everything else
passes through (note ±Infinity is truthy and passes through). -/
def orZero : JSNum → JSNum
  | .nan => .fin 0
  | x => x

/-- JS `<=` (false whenever either side is NaN). -/
def jsLe : JSNum → JSNum → Bool
  | .nan, _ => false
  | _, .nan => false
  | .ninf, _ => true
  | _, .ninf => false
  | _, .inf => true
  | .inf, .fin _ => false
  | .fin a, .fin b => a ≤ b

/-- JS `<` (false whenever either side is NaN). -/
def jsLt : JSNum → JSNum → Bool
  | .nan, _ => false
  | _, .nan => false
  | .inf, _ => false
  | .fin _, .inf => true
  | .ninf, .inf => true
  | .ninf, .fin _ => true
  | .ninf, .ninf => false
  | .fin _, .ninf => false
  | .fin a, .fin b => a < b

/-- JS `>=`. -/
def jsGe (a b : JSNum) : Bool := jsLe b a

/-- JS `>`. -/
def jsGt (a b : JSNum) : Bool := jsLt b a

/-- JS division (denominators of 0 give signed infinity or NaN, infinite
operands follow the IEEE rules; -0 is not distinguished from 0). -/
def jsDiv : JSNum → JSNum → JSNum
  | .nan, _ => .nan
  | _, .nan => .nan
  | .inf, .inf => .nan
  | .inf, .ninf => .nan
  | .ninf, .inf => .nan
  | .ninf, .ninf => .nan
  | .inf, .fin q => if q < 0 then .ninf else .inf
  | .ninf, .fin q => if q < 0 then .inf else .ninf
  | .fin _, .inf => .fin 0
  | .fin _, .ninf => .fin 0
  | .fin a, .fin b =>
      if b = 0 then (if a = 0 then .nan else if 0 < a then .inf else .ninf)
      else .fin (a / b)

/-- JS multiplication. -/
def jsMul : JSNum → JSNum → JSNum
  | .nan, _ => .nan
  | _, .nan => .nan
  | .inf, .inf => .inf
  | .inf, .ninf => .ninf
  | .ninf, .inf => .ninf
  | .ninf, .ninf => .inf
  | .inf, .fin q => if q = 0 then .nan else if 0 < q then .inf else .ninf
  | .fin q, .inf => if q = 0 then .nan else if 0 < q then .inf else .ninf
  | .ninf, .fin q => if q = 0 then .nan else if 0 < q then .ninf else .inf
  | .fin q, .ninf => if q = 0 then .nan else if 0 < q then .ninf else .inf
  | .fin a, .fin b => .fin (a * b)

/-- JS subtraction. -/
def jsSub : JSNum → JSNum → JSNum
  | .nan, _ => .nan
  | _, .nan => .nan
  | .inf, .inf => .nan
  | .ninf, .ninf => .nan
  | .inf, _ => .inf
  | .ninf, _ => .ninf
  | .fin _, .inf => .ninf
  | .fin _, .ninf => .inf
  | .fin a, .fin b => .fin (a - b)

/-- `Math.round` on a finite value: round half towards +∞. -/
def roundQ (q : ℚ) : ℤ := ⌊q + 1 / 2⌋

/-- `Math.round` (NaN and infinities pass through). -/
def jsRound : JSNum → JSNum
  | .fin q => .fin (roundQ q)
  | x => x

/-- `Math.ceil` (NaN and infinities pass through). -/
def jsCeil : JSNum → JSNum
  | .fin q => .fin ⌈q⌉
  | x => x

/-- `Math.max` of two arguments (NaN propagates). -/
def jsMax : JSNum → JSNum → JSNum
  | .nan, _ => .nan
  | _, .nan => .nan
  | .inf, _ => .inf
  | _, .inf => .inf
  | .ninf, y => y
  | x, .ninf => x
  | .fin a, .fin b => .fin (max a b)

end JSNum

open JSNum

/-- `clamp0to100` (identical in server.js line 28 and gemini-service.js
lines 518-522): a non-finite number yields the default 50, a finite one is
rounded and clamped into [0, 100]. -/
def clamp0to100 : JSNum → ℤ
  | .fin q => max 0 (min 100 (roundQ q))
  | _ => 50

/-- The six raw input fields consumed by `computeMetrics` (server.js) and
produced by `prepareInputs` (gemini-service.js): JS numbers; a missing field
coerces (via the unary `+` / `Number()` of the source) to NaN and is covered
by the `nan` case. -/
structure RawInputs where
  monthly_income : JSNum
  monthly_spending : JSNum
  total_savings : JSNum
  total_debt : JSNum
  monthly_investments : JSNum
  investment_balance : JSNum
deriving DecidableEq, Repr

/-- The metrics record returned by `computeMetrics` / `localMetrics`. -/
structure Metrics where
  budget_ratio : JSNum
  runway_months : JSNum
  invest_rate : JSNum
  dti : JSNum
  inc : JSNum
  sp : JSNum
  sav : JSNum
  debt : JSNum
deriving DecidableEq, Repr

/-- server.js lines 30-44, `computeMetrics` (textually identical to
`localMetrics`, gemini-service.js lines 560-571). -/
def computeMetrics (inputs : RawInputs) : Metrics :=
  let inc := orZero inputs.monthly_income
  let sp := orZero inputs.monthly_spending
  let sav := orZero inputs.total_savings
  let debt := orZero inputs.total_debt
  let invM := orZero inputs.monthly_investments
  let budget_ratio := if jsGt inc (jq 0) then jsDiv sp inc else .inf
  let runway_months :=
    if jsGt sp (jq 0) then jsDiv sav sp
    else if jsGt sav (jq 0) then jq 99.999 else jq 0
  let invest_rate := if jsGt inc (jq 0) then jsDiv invM inc else jq 0
  let dti := if jsGt inc (jq 0) then jsDiv debt inc else .inf
  ⟨budget_ratio, runway_months, invest_rate, dti, inc, sp, sav, debt⟩

/-- server.js lines 46-55, `pickState`: most-severe-match-wins cascade over
the four ratios, returning one of the 7 state labels. -/
def pickState (m : Metrics) : String :=
  if jsLe m.inc (jq 0) || jsGe m.budget_ratio (jq 1.5) ||
      jsLt m.runway_months (jq 0.5) then ("ATROCIOUS")
  else if jsGt m.budget_ratio (jq 1.10) || jsLt m.runway_months (jq 1.0) ||
      jsGt m.dti (jq 1.20) then ("CRITICAL")
  else if (jsGt m.budget_ratio (jq 0.90) && jsLe m.budget_ratio (jq 1.10)) ||
      (jsGe m.runway_months (jq 1.0) && jsLt m.runway_months (jq 2.0)) ||
      (jsGt m.dti (jq 0.60) && jsLe m.dti (jq 1.20)) then ("STRUGGLING")
  else if (jsGt m.budget_ratio (jq 0.80) && jsLe m.budget_ratio (jq 0.90)) ||
      (jsGe m.runway_months (jq 2.0) && jsLt m.runway_months (jq 3.0)) ||
      (jsGe m.invest_rate (jq 0.05) && jsLt m.invest_rate (jq 0.10)) then ("SURVIVING")
  else if jsLe m.budget_ratio (jq 0.80) &&
      (jsGe m.runway_months (jq 3.0) && jsLe m.runway_months (jq 6.0)) &&
      jsGe m.invest_rate (jq 0.10) && jsLe m.dti (jq 0.60) then ("HEALTHY")
  else if jsLe m.budget_ratio (jq 0.70) &&
      (jsGt m.runway_months (jq 6.0) && jsLe m.runway_months (jq 12.0)) &&
      jsGe m.invest_rate (jq 0.12) && jsLe m.dti (jq 0.40) then ("THRIVING")
  else if jsLe m.budget_ratio (jq 0.60) && jsGt m.runway_months (jq 12.0) &&
      jsGe m.invest_rate (jq 0.15) && jsLe m.dti (jq 0.20) then ("FANTASTIC")
  else ("SURVIVING")

/-- server.js lines 57-85, `computeHealth`: baseline 50, one additive bucket
per dimension (plus the extra budget penalty at ≥ 1.50 and the extra runway
penalty below 0.5), then `clamp0to100`.  The accumulator is an integer
throughout since every adjustment is an integer constant. -/
def computeHealth (m : Metrics) : ℤ :=
  let h0 : ℤ := 50
  let h1 :=
    if jsLe m.budget_ratio (jq 0.80) then h0 + 15
    else if jsLe m.budget_ratio (jq 0.90) then h0 + 5
    else if jsLe m.budget_ratio (jq 1.10) then h0 - 10
    else h0 - 25
  let h2 := if jsGe m.budget_ratio (jq 1.50) then h1 - 15 else h1
  let h3 :=
    if jsGe m.runway_months (jq 6) then h2 + 20
    else if jsGe m.runway_months (jq 3) then h2 + 10
    else if jsGe m.runway_months (jq 2) then h2 + 5
    else if jsGe m.runway_months (jq 1) then h2 - 10
    else if jsLt m.runway_months (jq 0.5) then h2 - 25 - 10
    else h2 - 25
  let h4 :=
    if jsGe m.invest_rate (jq 0.12) then h3 + 10
    else if jsGe m.invest_rate (jq 0.10) then h3 + 5
    else if jsGe m.invest_rate (jq 0.05) then h3 + 2
    else h3
  let h5 :=
    if jsLe m.dti (jq 0.40) then h4 + 10
    else if jsLe m.dti (jq 0.60) then h4 + 5
    else if jsLe m.dti (jq 1.20) then h4 - 10
    else h4 - 20
  clamp0to100 (.fin (h5 : ℚ))

/-- Rounding a value that is already an integer is the identity. -/
theorem roundQ_intCast (z : ℤ) : roundQ (z : ℚ) = z := by
  unfold roundQ
  rw [Int.floor_eq_iff]
  constructor
  · linarith
  · linarith

/-- `clamp0to100` always lands in [0, 100]. -/
theorem clamp0to100_mem (x : JSNum) :
    0 ≤ clamp0to100 x ∧ clamp0to100 x ≤ 100 := by
  cases x <;> simp only [clamp0to100] <;> omega

/-- `clamp0to100` of an integer-valued finite number is the plain integer
clamp. -/
theorem clamp0to100_intCast (z : ℤ) :
    clamp0to100 (.fin (z : ℚ)) = max 0 (min 100 z) := by
  simp [clamp0to100, roundQ_intCast]

/-- C2: for every Metrics value — including extreme, infinite or NaN
ratios, since every field ranges over all of `JSNum` — `computeHealth`
returns an integer (its codomain is ℤ) in the inclusive range [0, 100]. -/
theorem health_always_in_range (m : Metrics) :
    0 ≤ computeHealth m ∧ computeHealth m ≤ 100 := by
  unfold computeHealth
  exact clamp0to100_mem _

/-- C3: whenever the raw monthly income compares ≤ 0 (so it is negative,
zero or -∞; a NaN income never satisfies the comparison), `pickState`
returns the worst tier ATROCIOUS and `computeHealth` returns at most 25. -/
theorem income_nonpositive_worst_tier (inputs : RawInputs)
    (h : jsLe inputs.monthly_income (jq 0) = true) :
    pickState (computeMetrics inputs) = ("ATROCIOUS") ∧
      computeHealth (computeMetrics inputs) ≤ 25 := by
  obtain ⟨i, s, sa, d, iv, ib⟩ := inputs
  cases i with
  | nan => simp [jsLe] at h
  | inf => simp [jsLe, jq] at h
  | ninf =>
      constructor
      · simp [computeMetrics, pickState, orZero, jsGt, jsLt, jsLe, jq]
      · simp only [computeMetrics, orZero, computeHealth, jsGt, jsLt, jsLe,
          jsGe, jq]
        norm_num
        split_ifs <;> norm_num [clamp0to100, roundQ, Int.floor_eq_iff]
  | fin q =>
      simp only [jsLe, jq, decide_eq_true_eq] at h
      constructor
      · simp [computeMetrics, pickState, orZero, jsGt, jsLt, jsLe, jq, h,
          not_lt.mpr h]
      · simp only [computeMetrics, orZero, computeHealth, jsGt, jsLt, jsLe,
          jsGe, jq]
        norm_num [not_lt.mpr h]
        split_ifs <;> norm_num [clamp0to100, roundQ, Int.floor_eq_iff]

/-- Witness for C3 at the concrete input income = -5 (all other fields 0):
the hypothesis holds and the conclusion follows by the theorem. -/
theorem income_nonpositive_worst_tier_witness :
    jsLe (JSNum.fin (-5)) (jq 0) = true ∧
      (pickState (computeMetrics ⟨.fin (-5), jq 0, jq 0, jq 0, jq 0, jq 0⟩) =
          ("ATROCIOUS") ∧
        computeHealth (computeMetrics ⟨.fin (-5), jq 0, jq 0, jq 0, jq 0, jq 0⟩) ≤ 25) :=
  ⟨by norm_num [jsLe, jq],
    income_nonpositive_worst_tier ⟨.fin (-5), jq 0, jq 0, jq 0, jq 0, jq 0⟩
      (by norm_num [jsLe, jq])⟩

/-- The concrete scenario input of the spec: income 5000, spending 3000,
savings 10000, debt 2000, monthly investments 500. -/
def scenarioInputs : RawInputs := ⟨jq 5000, jq 3000, jq 10000, jq 2000, jq 500, jq 0⟩

/-- C7: on the scenario input the metrics are budget_ratio = 0.6,
runway_months = 10/3 (≈ 3.33), invest_rate = 0.10, dti = 0.40, the state is
the HEALTHY tier, and the health score is exactly 90 (hence ≥ 70). -/
theorem scenario_healthy_90 :
    computeMetrics scenarioInputs =
        ⟨jq (3 / 5), jq (10 / 3), jq (1 / 10), jq (2 / 5),
          jq 5000, jq 3000, jq 10000, jq 2000⟩ ∧
      pickState (computeMetrics scenarioInputs) = ("HEALTHY") ∧
      computeHealth (computeMetrics scenarioInputs) = 90 ∧
      70 ≤ computeHealth (computeMetrics scenarioInputs) := by
  refine ⟨?_, ?_, ?_, ?_⟩
  · norm_num [computeMetrics, scenarioInputs, orZero, jsGt, jsLt, jsDiv, jq]
  · norm_num [computeMetrics, scenarioInputs, orZero, pickState, jsGt, jsLt,
      jsLe, jsGe, jsDiv, jq]
  · norm_num [computeMetrics, scenarioInputs, orZero, computeHealth, jsGt,
      jsLt, jsLe, jsGe, jsDiv, jq, clamp0to100, roundQ]
  · norm_num [computeMetrics, scenarioInputs, orZero, computeHealth, jsGt,
      jsLt, jsLe, jsGe, jsDiv, jq, clamp0to100, roundQ]

/-- The raw record with every NaN field (and hence every missing field,
which coerces to NaN) replaced by 0, all other fields unchanged — the
coercion the source's `+x || 0` actually performs. -/
def coerceRaw (inputs : RawInputs) : RawInputs :=
  ⟨orZero inputs.monthly_income, orZero inputs.monthly_spending,
    orZero inputs.total_savings, orZero inputs.total_debt,
    orZero inputs.monthly_investments, orZero inputs.investment_balance⟩

/-- An input whose monthly investments are +∞ (e.g. the string "Infinity"
coerced by `Number()`), with income 1. -/
def c6Bad : RawInputs := ⟨jq 1, jq 0, jq 0, jq 0, .inf, jq 0⟩

/-- C6 counterexample: an infinite (hence non-finite) raw field is NOT
treated as 0 — with monthly_investments = +∞ and income 1 the computed
invest_rate is +∞, not the 0 that a zeroed field would give, so invest_rate
is not always finite. -/
theorem c6_invest_rate_infinite :
    (computeMetrics c6Bad).invest_rate = .inf ∧
      isFinite (computeMetrics c6Bad).invest_rate = false := by
  constructor <;>
    norm_num [computeMetrics, c6Bad, orZero, jsGt, jsLt, jsDiv, jq, isFinite]

/-- Amended C6: the `+x || 0` coercion treats NaN and missing fields as 0
(replacing every NaN field by 0 leaves the metrics unchanged), but passes
±Infinity through; invest_rate is finite whenever the coerced
monthly_investments field is finite — in particular whenever every raw
field is finite. -/
theorem coercion_nan_to_zero_and_invest_rate_finite (inputs : RawInputs) :
    computeMetrics inputs = computeMetrics (coerceRaw inputs) ∧
      (isFinite (orZero inputs.monthly_investments) = true →
        isFinite (computeMetrics inputs).invest_rate = true) := by
  obtain ⟨i, s, sa, d, iv, ib⟩ := inputs
  constructor
  · have oo : ∀ x : JSNum, orZero (orZero x) = orZero x := by
      intro x; cases x <;> simp [orZero]
    simp only [computeMetrics, coerceRaw, oo]
  · intro hfin
    have hiv : ∃ p : ℚ, orZero iv = .fin p := by
      cases iv with
      | nan => exact ⟨0, rfl⟩
      | inf => simp [orZero, isFinite] at hfin
      | ninf => simp [orZero, isFinite] at hfin
      | fin p => exact ⟨p, rfl⟩
    obtain ⟨p, hp⟩ := hiv
    simp only [computeMetrics, hp]
    cases hoi : orZero i with
    | nan => simp [jsGt, jsLt, isFinite, jq]
    | inf => simp [jsGt, jsLt, jsDiv, isFinite, jq]
    | ninf => simp [jsGt, jsLt, isFinite, jq]
    | fin q =>
        by_cases hq : 0 < q
        · simp [jsGt, jsLt, jq, hq, jsDiv, isFinite, ne_of_gt hq]
        · simp [jsGt, jsLt, jq, hq, isFinite]

/-- Witness for the amended C6 at the scenario input (all fields finite):
the hypothesis holds and invest_rate is finite. -/
theorem coercion_invest_rate_finite_witness :
    isFinite (orZero scenarioInputs.monthly_investments) = true ∧
      isFinite (computeMetrics scenarioInputs).invest_rate = true :=
  ⟨by norm_num [scenarioInputs, orZero, isFinite, jq],
    (coercion_nan_to_zero_and_invest_rate_finite scenarioInputs).2
      (by norm_num [scenarioInputs, orZero, isFinite, jq])⟩
/-! Text layer: gemini-service.js lines 442-483.  Character classes are
stated on code points (`Char.toNat`), matching the source regexes (which
carry the /u flag, so they work on code points). -/

/-- The emoji-like ranges removed by `sanitizeLine`
(U+2600-U+26FF and U+1F300-U+1FAFF). -/
def isEmojiChar (c : Char) : Bool :=
  decide ((0x2600 ≤ c.toNat ∧ c.toNat ≤ 0x26FF) ∨
    (0x1F300 ≤ c.toNat ∧ c.toNat ≤ 0x1FAFF))

/-- The parenthesis/colon class `[():]`. -/
def isParenColon (c : Char) : Bool :=
  decide (c.toNat = 40 ∨ c.toNat = 41 ∨ c.toNat = 58)

/-- The percent sign. -/
def isPercent (c : Char) : Bool := decide (c.toNat = 37)

/-- The JS `\s` class (which is also what `String.trim` removes). -/
def isJsWhite (c : Char) : Bool :=
  decide (c.toNat = 32 ∨ c.toNat = 9 ∨ c.toNat = 10 ∨ c.toNat = 13 ∨
    c.toNat = 11 ∨ c.toNat = 12 ∨ c.toNat = 160 ∨ c.toNat = 5760 ∨
    (8192 ≤ c.toNat ∧ c.toNat ≤ 8202) ∨ c.toNat = 8232 ∨ c.toNat = 8233 ∨
    c.toNat = 8239 ∨ c.toNat = 8287 ∨ c.toNat = 12288 ∨ c.toNat = 65279)

/-- The JS `\w` class `[A-Za-z0-9_]`, which defines the `\b` boundaries. -/
def isWordChar (c : Char) : Bool :=
  decide ((97 ≤ c.toNat ∧ c.toNat ≤ 122) ∨ (65 ≤ c.toNat ∧ c.toNat ≤ 90) ∨
    (48 ≤ c.toNat ∧ c.toNat ≤ 57) ∨ c.toNat = 95)

/-- Case-insensitive match of the letter m (the /i flag). -/
def isMoM (c : Char) : Bool := decide (c.toNat = 109 ∨ c.toNat = 77)

/-- Case-insensitive match of the letter o. -/
def isMoO (c : Char) : Bool := decide (c.toNat = 111 ∨ c.toNat = 79)

/-- A `\b` word boundary holds after a word character when this list (the
rest of the input) is empty or starts with a non-word character. -/
def boundaryAfter : List Char → Bool
  | [] => true
  | c :: _ => !isWordChar c

/-- `t.replace(/[☀-⛿\u{1F300}-\u{1FAFF}]/gu, '')`. -/
def stripEmoji (l : List Char) : List Char := l.filter (fun c => !isEmojiChar c)

/-- `t.replace(/[():]/g, '')`. -/
def stripParenColon (l : List Char) : List Char :=
  l.filter (fun c => !isParenColon c)

/-- `t.replace(/%/g, ' percent')`. -/
def expandPercent : List Char → List Char
  | [] => []
  | c :: r =>
      if isPercent c then (" percent").toList ++ expandPercent r
      else c :: expandPercent r

/-- `t.replace(/\bmo\b/gi, 'months')`: a left-to-right scan; the Bool
argument records whether the character before the current position (in the
original string) is a word character, so `!prevW` is exactly the `\b`
before the m.  After a match the scan resumes past the match, with the
matched o (a word character) as the previous character.  A single leftover
character cannot start a match. -/
def moWord : Bool → List Char → List Char
  | _, [] => []
  | _, [c1] => [c1]
  | prevW, c1 :: c2 :: rest2 =>
      if !prevW && isMoM c1 && isMoO c2 && boundaryAfter rest2 then
        (("months").toList) ++ moWord true rest2
      else c1 :: moWord (isWordChar c1) (c2 :: rest2)

/-- `t.replace(/\bmo\./gi, 'months')`: same scan for m, o and a literal
dot; after a match the previous character is the dot (non-word). -/
def moDot : Bool → List Char → List Char
  | _, [] => []
  | _, [c1] => [c1]
  | _, [c1, c2] => [c1, c2]
  | prevW, c1 :: c2 :: c3 :: rest3 =>
      if !prevW && isMoM c1 && isMoO c2 && decide (c3.toNat = 46) then
        (("months").toList) ++ moDot false rest3
      else c1 :: moDot (isWordChar c1) (c2 :: c3 :: rest3)

/-- `t.replace(/\s+/g, ' ')`: each maximal whitespace run becomes one
space (emitted at the run's last character). -/
def collapseWs : List Char → List Char
  | [] => []
  | [c] => if isJsWhite c then [' '] else [c]
  | c1 :: c2 :: r =>
      if isJsWhite c1 && isJsWhite c2 then collapseWs (c2 :: r)
      else (if isJsWhite c1 then ' ' else c1) :: collapseWs (c2 :: r)

/-- `String.prototype.trim`. -/
def jsTrim (l : List Char) : List Char :=
  ((l.dropWhile isJsWhite).reverse.dropWhile isJsWhite).reverse

/-- The terminal-punctuation class `[.!?]`. -/
def isEndPunct (c : Char) : Bool :=
  decide (c.toNat = 46 ∨ c.toNat = 33 ∨ c.toNat = 63)

/-- `if (!/[.!?]$/.test(t) && t.length) t += '.'`. -/
def addPeriod (l : List Char) : List Char :=
  match l.getLast? with
  | none => l
  | some c => if isEndPunct c then l else l ++ ['.']

/-- gemini-service.js lines 445-466, `sanitizeLine`, on lists of
characters: the seven regex stages in source order. -/
def sanitizeLine (l : List Char) : List Char :=
  addPeriod (jsTrim (collapseWs (moDot false (moWord false
    (expandPercent (stripParenColon (stripEmoji l)))))))

/-- `sanitizeLine` on `String` (the source's `String(s || '')` is the
identity on strings, since the only falsy string is already ''). -/
def sanitizeLineS (s : String) : String := ⟨sanitizeLine s.toList⟩

/-- The trailing `\s+\S*$` removal of `shorten`: remove the last word and
the whitespace run before it; a string with no whitespace has no match and
is unchanged. -/
def dropLastWordRe (l : List Char) : List Char :=
  let r1 := l.reverse.dropWhile (fun c => !isJsWhite c)
  match r1 with
  | [] => l
  | _ :: _ => (r1.dropWhile isJsWhite).reverse

/-- The trailing `[.!?]+$` removal of `shorten`. -/
def stripEndPunct (l : List Char) : List Char :=
  (l.reverse.dropWhile isEndPunct).reverse

/-- gemini-service.js lines 468-473, `shorten`, on lists of characters. -/
def shortenL (l : List Char) (maxLen : ℕ) : List Char :=
  let t := jsTrim l
  if t.length ≤ maxLen then t
  else stripEndPunct (dropLastWordRe (t.take maxLen)) ++ ['.']

/-- `shorten` on `String` (the source's default maxLen of 96 is passed
explicitly at every call site here). -/
def shortenS (s : String) (maxLen : ℕ) : String := ⟨shortenL s.toList maxLen⟩

/-! Client layer: gemini-service.js lines 311-663 (the deterministic
fallback path and final UI normalisation). -/

/-- The decimal digit with value `n` (for `n < 10`). -/
def digitChar (n : ℕ) : Char := Char.ofNat (48 + n)

/-- Decimal rendering of a natural number: fuel-indexed helper (the fuel
`n` itself always suffices since `n / 10 < n` for `n ≥ 10`). -/
def natChars : ℕ → ℕ → List Char → List Char
  | 0, n, acc => digitChar (n % 10) :: acc
  | fuel + 1, n, acc =>
      if n < 10 then digitChar n :: acc
      else natChars fuel (n / 10) (digitChar (n % 10) :: acc)

/-- Decimal rendering of a natural number. -/
def natStr (n : ℕ) : List Char := natChars n n []

/-- Decimal rendering of an integer. -/
def intStr (z : ℤ) : List Char :=
  if z < 0 then '-' :: natStr z.natAbs else natStr z.natAbs

/-- JS template interpolation `${x}` of a number.  The modelled code only
interpolates integral values (results of Math.round / Math.ceil /
Math.max) or the non-finite values; the non-integral branch renders
num/den and is unreachable in those uses. -/
def numStr : JSNum → List Char
  | .nan => ("NaN").toList
  | .inf => ("Infinity").toList
  | .ninf => ("-Infinity").toList
  | .fin q =>
      if q.den = 1 then intStr q.num
      else intStr q.num ++ '/' :: natStr q.den

/-- `x.toFixed(1)`: one decimal digit.  Modelled as decimal rendering of
the value rounded to tenths (JS switches to exponential rendering beyond
1e21 and has its own tie behaviour; the claims below use this rendering
only through bounded inputs, where digits and lengths agree). -/
def toFixed1 : JSNum → List Char
  | .nan => ("NaN").toList
  | .inf => ("Infinity").toList
  | .ninf => ("-Infinity").toList
  | .fin q =>
      let n : ℤ := roundQ (q * 10)
      (if n < 0 then ['-'] else []) ++
        natStr (n.natAbs / 10) ++ '.' :: natStr (n.natAbs % 10)

/-- gemini-service.js line 540: `x => isFinite(x) ? `N percent` :
'infinite'` with N = Math.round(x*100). -/
def pctS : JSNum → List Char
  | .fin q => intStr (roundQ (q * 100)) ++ (" percent").toList
  | _ => ("infinite").toList

/-- gemini-service.js lines 573-582, `localPickState`: the same cascade as
the server's `pickState` with the FLATLINED/LEGENDARY tier names. -/
def localPickState (m : Metrics) : String :=
  if jsLe m.inc (jq 0) || jsGe m.budget_ratio (jq 1.5) ||
      jsLt m.runway_months (jq 0.5) then ("FLATLINED")
  else if jsGt m.budget_ratio (jq 1.10) || jsLt m.runway_months (jq 1.0) ||
      jsGt m.dti (jq 1.20) then ("CRITICAL")
  else if (jsGt m.budget_ratio (jq 0.90) && jsLe m.budget_ratio (jq 1.10)) ||
      (jsGe m.runway_months (jq 1.0) && jsLt m.runway_months (jq 2.0)) ||
      (jsGt m.dti (jq 0.60) && jsLe m.dti (jq 1.20)) then ("STRUGGLING")
  else if (jsGt m.budget_ratio (jq 0.80) && jsLe m.budget_ratio (jq 0.90)) ||
      (jsGe m.runway_months (jq 2.0) && jsLt m.runway_months (jq 3.0)) ||
      (jsGe m.invest_rate (jq 0.05) && jsLt m.invest_rate (jq 0.10)) then ("SURVIVING")
  else if jsLe m.budget_ratio (jq 0.80) &&
      (jsGe m.runway_months (jq 3.0) && jsLe m.runway_months (jq 6.0)) &&
      jsGe m.invest_rate (jq 0.10) && jsLe m.dti (jq 0.60) then ("HEALTHY")
  else if jsLe m.budget_ratio (jq 0.70) &&
      (jsGt m.runway_months (jq 6.0) && jsLe m.runway_months (jq 12.0)) &&
      jsGe m.invest_rate (jq 0.12) && jsLe m.dti (jq 0.40) then ("THRIVING")
  else if jsLe m.budget_ratio (jq 0.60) && jsGt m.runway_months (jq 12.0) &&
      jsGe m.invest_rate (jq 0.15) && jsLe m.dti (jq 0.20) then ("LEGENDARY")
  else ("SURVIVING")

/-- gemini-service.js lines 584-608, `localHealth`: textually the same
rule table as the server's `computeHealth`. -/
def localHealth (m : Metrics) : ℤ := computeHealth m

/-- gemini-service.js lines 560-571, `localMetrics`: textually the same
as the server's `computeMetrics`. -/
def localMetrics (inputs : RawInputs) : Metrics := computeMetrics inputs

/-- The headline template of `computeLocalFallback` (one fixed sentence
per tier, chained equality tests in source order). -/
def headlineFor (state : String) : String :=
  if state = ("LEGENDARY") then ("Legend energy. Keep going.")
  else if state = ("THRIVING") then ("Strong path. Stay steady.")
  else if state = ("HEALTHY") then ("Solid footing. Nice work.")
  else if state = ("SURVIVING") then ("We are okay. Let’s tighten a bit.")
  else if state = ("STRUGGLING") then ("Pressure is building. Quick wins help.")
  else if state = ("CRITICAL") then ("This is critical. Protect cash now.")
  else ("Flatlined. Emergency mode.")

/-- Advice line 1 of `computeLocalFallback` (gemini-service.js lines
542-546): praise spending share, else runway, else the generic opener. -/
def adviceLine1 (m : Metrics) : List Char :=
  if jsLe m.budget_ratio (jq 0.8) then
    ("Your spending is ").toList ++ pctS m.budget_ratio ++
      (" which is under the target.").toList
  else if jsGe m.runway_months (jq 3) then
    ("You have ").toList ++ toFixed1 m.runway_months ++
      (" months of runway which is a good base.").toList
  else ("You picked a clear place to start and that is good.").toList

/-- Advice line 2 (lines 547-551): trim overspending, else raise the
investment rate, else the generic cut-a-category line. -/
def adviceLine2 (m : Metrics) : List Char :=
  if jsGt m.budget_ratio (jq 0.9) then
    ("Trim spending by about ").toList ++
      numStr (jsCeil (jsMul (jsSub m.budget_ratio (jq 0.9)) (jq 100))) ++
      (" percent to reach ninety percent.").toList
  else if jsLt m.invest_rate (jq 0.10) then
    ("Raise investing to ten percent you are at ").toList ++
      pctS m.invest_rate ++ (" now.").toList
  else ("Choose one category to cut this week and stick to it.").toList

/-- Advice line 3 (lines 552-554): a weekly auto-transfer goal, else the
generic track-daily line. -/
def adviceLine3 (m : Metrics) : List Char :=
  if jsLt m.invest_rate (jq 0.10) then
    ("Set an automatic transfer of ").toList ++
      numStr (jsMax (jq 1) (jsCeil (jsDiv (jsMul (orZero m.inc) (jq 0.10)) (jq 4)))) ++
      (" each week.").toList
  else ("Track spending daily and keep the ratio at or below eighty percent.").toList

/-- The object shape produced by `computeLocalFallback` and consumed by
`finalizeForUI` (health is a JS number there; the other consumed fields
are strings). -/
structure GResult where
  state : String
  health : JSNum
  headline : String
  advice : List String
  message : String
deriving DecidableEq, Repr

/-- gemini-service.js lines 526-558, `computeLocalFallback`: headline by
tier, three advice lines each passed through `sanitizeLine` and then
`shorten`, empty message. -/
def computeLocalFallback (inputs : RawInputs) : GResult :=
  let m := localMetrics inputs
  let state := localPickState m
  let health := localHealth m
  ⟨localPickState m, .fin (health : ℚ), sanitizeLineS (headlineFor state),
    [shortenS (sanitizeLineS ⟨adviceLine1 m⟩) 96,
      shortenS (sanitizeLineS ⟨adviceLine2 m⟩) 96,
      shortenS (sanitizeLineS ⟨adviceLine3 m⟩) 96],
    ("")⟩

/-- ASCII lower-casing (JS `toLowerCase`; the strings compared by the
modelled code are ASCII). -/
def toLowerS (s : String) : String := ⟨s.toList.map Char.toLower⟩

/-- ASCII upper-casing (JS `toUpperCase`). -/
def toUpperS (s : String) : String := ⟨s.toList.map Char.toUpper⟩

/-- gemini-service.js lines 513-517, `toAllowedState`: upper-case and keep
only the seven allowed labels, anything else becomes SURVIVING. -/
def toAllowedState (s : String) : String :=
  let up := toUpperS s
  if up = ("FLATLINED") || up = ("CRITICAL") || up = ("STRUGGLING") ||
      up = ("SURVIVING") || up = ("HEALTHY") || up = ("THRIVING") ||
      up = ("LEGENDARY") then up
  else ("SURVIVING")

/-- gemini-service.js lines 475-483, `uniqueList`: keep the first
occurrence of each string under case-insensitive comparison. -/
def uniqueListGo (seen : List String) : List String → List String
  | [] => []
  | x :: r =>
      if toLowerS x ∈ seen then uniqueListGo seen r
      else x :: uniqueListGo (toLowerS x :: seen) r

/-- `uniqueList` with an empty seen set. -/
def uniqueList (l : List String) : List String := uniqueListGo [] l

/-- Whether the pattern (first argument) is a prefix of the text. -/
def listStartsWith : List Char → List Char → Bool
  | [], _ => true
  | _ :: _, [] => false
  | p :: ps, c :: cs => p == c && listStartsWith ps cs

/-- Whether the pattern occurs contiguously anywhere in the text. -/
def listContainsSeq (pat : List Char) : List Char → Bool
  | [] => listStartsWith pat []
  | c :: cs => listStartsWith pat (c :: cs) || listContainsSeq pat cs

/-- `/analyzing/i.test(currentText)`. -/
def containsAnalyzing (s : String) : Bool :=
  listContainsSeq (("analyzing").toList) (s.toList.map Char.toLower)

/-- The record `finalizeForUI` returns to the UI. -/
structure UIResult where
  state : String
  health : ℤ
  message : String
  headline : String
  advice : List String
deriving DecidableEq, Repr

/-- `advice.map(b => `• ${b}`).join('\n')`. -/
def bulletJoin (advice : List String) : String :=
  String.intercalate ("\n") (advice.map (fun b => ("• ") ++ b))

/-- gemini-service.js lines 485-511, `finalizeForUI`.  The DOM read of
`#petMessage` is modelled by the explicit `currentText` argument. -/
def finalizeForUI (currentText : String) (obj : GResult) : UIResult :=
  let isAnalyzing := containsAnalyzing currentText
  let headline :=
    sanitizeLineS (shortenS
      (if obj.headline ≠ ("") then obj.headline else obj.message) 96)
  let advice1 :=
    (obj.advice.map (fun a => sanitizeLineS (shortenS a 96))).filter
      (fun a => a != (""))
  let advice := (uniqueList advice1).take 3
  let baseRaw :=
    if headline ≠ ("") then headline
    else if isAnalyzing then ("") else currentText
  let base := sanitizeLineS (shortenS baseRaw 96)
  let bullets := if advice = [] then ("") else bulletJoin advice
  let message :=
    if bullets ≠ ("") then
      (if base ≠ ("") then base ++ ("\n") ++ bullets else bullets)
    else base
  ⟨toAllowedState obj.state, clamp0to100 obj.health,
    if message ≠ ("") then message else ("All set."), headline, advice⟩

/-- The client-side `data` record fed to `analyzeFinancialData` (string
or number fields; `Number()` coercion of a non-numeric string is NaN and
is covered by the `nan` case). -/
structure ClientData where
  income : JSNum
  spending : JSNum
  savings : JSNum
  debt : JSNum
  monthlyInvestments : JSNum
  investmentBalance : JSNum
deriving DecidableEq, Repr

/-- gemini-service.js lines 411-420, `prepareInputs`: `Number(x) || 0` on
each field. -/
def prepareInputs (d : ClientData) : RawInputs :=
  ⟨orZero d.income, orZero d.spending, orZero d.savings, orZero d.debt,
    orZero d.monthlyInvestments, orZero d.investmentBalance⟩

/-- The value `analyzeFinancialData` resolves with on every failure path
(HTTP error, network error or 15 s timeout: the `!ok` throw and every
rejection land in the same catch, gemini-service.js lines 340-344, which
returns `finalizeForUI(computeLocalFallback(prepareInputs(data)))`).  The
function is total, so the promise it models always resolves. -/
def analyzeFinancialDataFailure (d : ClientData) (currentText : String) :
    UIResult :=
  finalizeForUI currentText (computeLocalFallback (prepareInputs d))

/-- The `message || 'All set.'` default: the result is never empty. -/
theorem msg_or_default_ne (s : String) :
    (if s ≠ ("") then s else ("All set.")) ≠ ("") := by
  by_cases h : s = ("")
  · simp [h]
  · simp [h]

/-- C1: on every failure of the external call (HTTP error, network error
or timeout — all of which reach the same catch block), the modelled
`analyzeFinancialData` still produces a result (the function is total, so
the promise resolves) whose message field is a non-empty string, for every
input record and every current DOM text. -/
theorem analyze_failure_resolves_nonempty (d : ClientData) (t : String) :
    (analyzeFinancialDataFailure d t).message ≠ ("") := by
  unfold analyzeFinancialDataFailure finalizeForUI
  dsimp only
  exact msg_or_default_ne _

/-- C10: `clamp0to100` returns the default 50 on every non-finite input
(NaN — which is also what a non-numeric value coerces to — and both
infinities), returns the rounded value clamped into [0, 100] on every
finite input, and therefore the health field of every `finalizeForUI`
result is an integer in [0, 100] whatever the payload's health was. -/
theorem clamp0to100_spec :
    (∀ x : JSNum, isFinite x = false → clamp0to100 x = 50) ∧
      (∀ q : ℚ, clamp0to100 (.fin q) = max 0 (min 100 (roundQ q))) ∧
      (∀ (t : String) (obj : GResult),
        0 ≤ (finalizeForUI t obj).health ∧ (finalizeForUI t obj).health ≤ 100) := by
  refine ⟨?_, ?_, ?_⟩
  · intro x hx
    cases x with
    | fin q => simp [isFinite] at hx
    | nan => rfl
    | inf => rfl
    | ninf => rfl
  · intro q; rfl
  · intro t obj
    have : (finalizeForUI t obj).health = clamp0to100 obj.health := rfl
    rw [this]
    exact clamp0to100_mem obj.health

/-- Witness for C10 at the concrete non-finite input NaN: the hypothesis
holds and the default 50 is returned. -/
theorem clamp0to100_spec_witness :
    isFinite JSNum.nan = false ∧ clamp0to100 JSNum.nan = 50 :=
  ⟨rfl, clamp0to100_spec.1 JSNum.nan rfl⟩

/-! Sanitizer invariant machinery. -/

/-- The o-and-boundary part of a `\bmo\b` match test at the position
after an m: the rest of the input starts with an o followed by a word
boundary. -/
def moHead : List Char → Bool
  | [] => false
  | c :: r => isMoO c && boundaryAfter r

/-- Whether the input, scanned with the given previous-character-is-word
flag, contains a `\bmo\b` match anywhere. -/
def hasMoWord : Bool → List Char → Bool
  | _, [] => false
  | _, [_] => false
  | prevW, c1 :: c2 :: rest2 =>
      (!prevW && isMoM c1 && isMoO c2 && boundaryAfter rest2) ||
        hasMoWord (isWordChar c1) (c2 :: rest2)

theorem hasMoWord_nil (p : Bool) : hasMoWord p [] = false := rfl

theorem hasMoWord_cons (p : Bool) (c : Char) (t : List Char) :
    hasMoWord p (c :: t) =
      ((!p && isMoM c && moHead t) || hasMoWord (isWordChar c) t) := by
  cases t <;> simp [hasMoWord, moHead, Bool.and_assoc]

theorem white_not_word {c : Char} (h : isJsWhite c = true) :
    isWordChar c = false := by
  simp only [isJsWhite, decide_eq_true_eq] at h
  simp only [isWordChar, decide_eq_false_iff_not]
  omega

theorem white_not_m {c : Char} (h : isJsWhite c = true) : isMoM c = false := by
  simp only [isJsWhite, decide_eq_true_eq] at h
  simp only [isMoM, decide_eq_false_iff_not]
  omega

theorem white_not_o {c : Char} (h : isJsWhite c = true) : isMoO c = false := by
  simp only [isJsWhite, decide_eq_true_eq] at h
  simp only [isMoO, decide_eq_false_iff_not]
  omega

theorem m_is_word {c : Char} (h : isMoM c = true) : isWordChar c = true := by
  simp only [isMoM, decide_eq_true_eq] at h
  simp only [isWordChar, decide_eq_true_eq]
  omega

theorem o_is_word {c : Char} (h : isMoO c = true) : isWordChar c = true := by
  simp only [isMoO, decide_eq_true_eq] at h
  simp only [isWordChar, decide_eq_true_eq]
  omega

theorem moWord_ne_nil (p : Bool) (l : List Char) (h : l ≠ []) :
    moWord p l ≠ [] := by
  match l with
  | [c1] => simp [moWord]
  | c1 :: c2 :: r =>
      rw [moWord]
      split <;> simp

theorem moWord_true_cons (c : Char) (t : List Char) :
    moWord true (c :: t) = c :: moWord (isWordChar c) t := by
  cases t <;> simp [moWord]

/-- If there is no match, the `\bmo\b` replacement is the identity. -/
theorem moWord_id (p : Bool) (l : List Char) (h : hasMoWord p l = false) :
    moWord p l = l := by
  induction p, l using moWord.induct with
  | case1 p => rfl
  | case2 p c1 => rfl
  | case3 p c1 c2 r hc ih =>
      rw [hasMoWord] at h
      rw [(Bool.or_eq_false_iff.mp h).1] at hc
      simp at hc
  | case4 p c1 c2 r hc ih =>
      rw [hasMoWord] at h
      rw [moWord, if_neg hc]
      rw [ih ((Bool.or_eq_false_iff.mp h).2)]

theorem hasMoWord_months_append (p : Bool) (t : List Char) :
    hasMoWord p (("months").toList ++ t) = hasMoWord true t := by
  show hasMoWord p ('m' :: 'o' :: 'n' :: 't' :: 'h' :: 's' :: t) = hasMoWord true t
  simp [hasMoWord_cons, moHead, boundaryAfter, isMoM, isMoO, isWordChar]

/-- The `\bmo\b` replacement leaves no match behind. -/
theorem hasMoWord_moWord (p : Bool) (l : List Char) :
    hasMoWord p (moWord p l) = false := by
  induction p, l using moWord.induct with
  | case1 p => rfl
  | case2 p c1 => rfl
  | case3 p c1 c2 r hc ih =>
      rw [moWord, if_pos hc, hasMoWord_months_append]
      exact ih
  | case4 p c1 c2 r hc ih =>
      rw [moWord, if_neg hc, hasMoWord_cons]
      rw [Bool.or_eq_false_iff]
      refine ⟨?_, ih⟩
      by_cases hp : p
      · simp [hp]
      · by_cases hm : isMoM c1
        · have hw : isWordChar c1 = true := m_is_word hm
          rw [hw] at ih ⊢
          rw [moWord_true_cons]
          by_cases ho : isMoO c2
          · cases hB : boundaryAfter r with
            | true => exact absurd (by simp [hp, hm, ho, hB]) hc
            | false =>
                match r with
                | [] => simp [boundaryAfter] at hB
                | d :: r' =>
                    have hd : isWordChar d = true := by
                      simpa [boundaryAfter] using hB
                    rw [o_is_word ho, moWord_true_cons]
                    simp [moHead, boundaryAfter, hd]
          · simp [moHead, ho]
        · simp [hm]

/-- A `\bmo\.` match is in particular a `\bmo\b` match (the dot is a
non-word character), so a match-free string is left unchanged by the
`\bmo\.` replacement. -/
theorem moDot_id (p : Bool) (l : List Char) (h : hasMoWord p l = false) :
    moDot p l = l := by
  induction p, l using moDot.induct with
  | case1 p => rfl
  | case2 p c1 => rfl
  | case3 p c1 c2 => rfl
  | case4 p c1 c2 c3 r hc ih =>
      exfalso
      rw [Bool.and_eq_true, Bool.and_eq_true, Bool.and_eq_true] at hc
      obtain ⟨⟨⟨hp, hm⟩, ho⟩, hdot⟩ := hc
      have h46 : c3.toNat = 46 := by simpa using hdot
      have hw : isWordChar c3 = false := by
        simp only [isWordChar, decide_eq_false_iff_not]
        omega
      rw [hasMoWord, Bool.or_eq_false_iff] at h
      have h1 := h.1
      rw [hp, hm, ho] at h1
      simp [boundaryAfter, hw] at h1
  | case5 p c1 c2 c3 r hc ih =>
      rw [hasMoWord] at h
      rw [moDot, if_neg hc, ih ((Bool.or_eq_false_iff.mp h).2)]

/-- A character that can take part in no `\bmo\b` match and no boundary:
not a word character, not an m, not an o. -/
def neutralChar (c : Char) : Bool :=
  !isWordChar c && !isMoM c && !isMoO c

theorem neutral_of_white {c : Char} (h : isJsWhite c = true) :
    neutralChar c = true := by
  simp [neutralChar, white_not_word h, white_not_m h, white_not_o h]

theorem boundaryAfter_append_neutral {s : List Char}
    (hs : ∀ c ∈ s, neutralChar c = true) (t : List Char) :
    boundaryAfter (t ++ s) = boundaryAfter t := by
  cases t with
  | nil =>
      cases s with
      | nil => rfl
      | cons d s' =>
          have := hs d (by simp)
          simp only [neutralChar, Bool.and_eq_true, Bool.not_eq_true'] at this
          simp [boundaryAfter, this.1.1]
  | cons e t' => rfl

theorem moHead_append_neutral {s : List Char}
    (hs : ∀ c ∈ s, neutralChar c = true) (t : List Char) :
    moHead (t ++ s) = moHead t := by
  cases t with
  | nil =>
      cases s with
      | nil => rfl
      | cons d s' =>
          have := hs d (by simp)
          simp only [neutralChar, Bool.and_eq_true, Bool.not_eq_true'] at this
          simp [moHead, this.2]
  | cons e t' =>
      simp only [List.cons_append, moHead]
      rw [boundaryAfter_append_neutral hs]

theorem hasMoWord_all_neutral {s : List Char}
    (hs : ∀ c ∈ s, neutralChar c = true) (p : Bool) :
    hasMoWord p s = false := by
  induction s generalizing p with
  | nil => rfl
  | cons c s' ih =>
      have hc := hs c (by simp)
      simp only [neutralChar, Bool.and_eq_true, Bool.not_eq_true'] at hc
      rw [hasMoWord_cons, Bool.or_eq_false_iff]
      exact ⟨by simp [hc.1.2],
        ih (fun d hd => hs d (List.mem_cons_of_mem c hd)) (isWordChar c)⟩

theorem hasMoWord_append_neutral {s : List Char}
    (hs : ∀ c ∈ s, neutralChar c = true) (p : Bool) (t : List Char) :
    hasMoWord p (t ++ s) = hasMoWord p t := by
  induction t generalizing p with
  | nil => simp [hasMoWord_all_neutral hs, hasMoWord]
  | cons c t' ih =>
      rw [List.cons_append, hasMoWord_cons, hasMoWord_cons,
        moHead_append_neutral hs, ih]

theorem hasMoWord_cons_white {c : Char} (h : isJsWhite c = true) (p : Bool)
    (t : List Char) : hasMoWord p (c :: t) = hasMoWord false t := by
  rw [hasMoWord_cons, white_not_m h, white_not_word h]
  simp

theorem collapseWs_cons_not_white {c : Char} (h : isJsWhite c = false)
    (r : List Char) : collapseWs (c :: r) = c :: collapseWs r := by
  cases r with
  | nil => simp [collapseWs, h]
  | cons c2 r' => simp [collapseWs, h]

theorem collapseWs_white_head (c : Char) (r : List Char)
    (h : isJsWhite c = true) : ∃ t, collapseWs (c :: r) = ' ' :: t := by
  induction r generalizing c with
  | nil => exact ⟨[], by simp [collapseWs, h]⟩
  | cons c2 r' ih =>
      by_cases h2 : isJsWhite c2 = true
      · rw [collapseWs, if_pos (by simp [h, h2])]
        exact ih c2 h2
      · refine ⟨collapseWs (c2 :: r'), ?_⟩
        rw [collapseWs, if_neg (by simp [h2]), if_pos h]

theorem boundaryAfter_collapseWs (l : List Char) :
    boundaryAfter (collapseWs l) = boundaryAfter l := by
  cases l with
  | nil => rfl
  | cons c r =>
      by_cases h : isJsWhite c = true
      · obtain ⟨t, ht⟩ := collapseWs_white_head c r h
        rw [ht]
        show (!isWordChar ' ') = (!isWordChar c)
        rw [white_not_word h]
        decide
      · rw [collapseWs_cons_not_white (by simpa using h)]
        rfl

theorem moHead_collapseWs (l : List Char) :
    moHead (collapseWs l) = moHead l := by
  cases l with
  | nil => rfl
  | cons c r =>
      by_cases h : isJsWhite c = true
      · obtain ⟨t, ht⟩ := collapseWs_white_head c r h
        rw [ht]
        show (isMoO ' ' && boundaryAfter t) = (isMoO c && boundaryAfter r)
        rw [white_not_o h]
        simp [isMoO]
      · rw [collapseWs_cons_not_white (by simpa using h)]
        simp only [moHead]
        rw [boundaryAfter_collapseWs]

theorem hasMoWord_collapseWs (l : List Char) (p : Bool) :
    hasMoWord p (collapseWs l) = hasMoWord p l := by
  induction l using collapseWs.induct generalizing p with
  | case1 => rfl
  | case2 c h => rw [collapseWs, if_pos h]; rfl
  | case3 c h => rw [collapseWs, if_neg h]
  | case4 c1 c2 r hc ih =>
      have h12 := Bool.and_eq_true _ _ |>.mp hc
      rw [collapseWs, if_pos hc, ih,
        hasMoWord_cons_white h12.1, hasMoWord_cons_white h12.2,
        hasMoWord_cons_white h12.2]
  | case5 c1 c2 r hc ih =>
      rw [collapseWs, if_neg hc]
      by_cases h1 : isJsWhite c1 = true
      · rw [if_pos h1]
        rw [hasMoWord_cons_white (by decide) p (collapseWs (c2 :: r)),
          hasMoWord_cons_white h1, ih]
      · rw [if_neg h1]
        rw [hasMoWord_cons, hasMoWord_cons, moHead_collapseWs, ih]

theorem hasMoWord_dropWhile_white (l : List Char) :
    hasMoWord false (l.dropWhile isJsWhite) = hasMoWord false l := by
  induction l with
  | nil => rfl
  | cons c t ih =>
      by_cases h : isJsWhite c = true
      · rw [List.dropWhile_cons_of_pos h, ih, hasMoWord_cons_white h]
      · rw [List.dropWhile_cons_of_neg (by simp [h])]

theorem trimRight_decomp (l : List Char) :
    (l.reverse.dropWhile isJsWhite).reverse ++
      (l.reverse.takeWhile isJsWhite).reverse = l := by
  rw [← List.reverse_append, List.takeWhile_append_dropWhile,
    List.reverse_reverse]

theorem hasMoWord_jsTrim (l : List Char) :
    hasMoWord false (jsTrim l) = hasMoWord false l := by
  unfold jsTrim
  set u := l.dropWhile isJsWhite with hu
  have hs : ∀ c ∈ (u.reverse.takeWhile isJsWhite).reverse,
      neutralChar c = true := by
    intro c hcm
    rw [List.mem_reverse] at hcm
    exact neutral_of_white (List.mem_takeWhile_imp hcm)
  calc hasMoWord false (u.reverse.dropWhile isJsWhite).reverse
      = hasMoWord false ((u.reverse.dropWhile isJsWhite).reverse ++
          (u.reverse.takeWhile isJsWhite).reverse) :=
        (hasMoWord_append_neutral hs false _).symm
    _ = hasMoWord false u := by rw [trimRight_decomp]
    _ = hasMoWord false l := hasMoWord_dropWhile_white l

theorem hasMoWord_addPeriod (l : List Char) (h : hasMoWord false l = false) :
    hasMoWord false (addPeriod l) = false := by
  unfold addPeriod
  cases hl : l.getLast? with
  | none => exact h
  | some c =>
      dsimp only
      by_cases hp : isEndPunct c = true
      · rw [if_pos hp]; exact h
      · rw [if_neg hp, hasMoWord_append_neutral (by decide) false l]
        exact h

/-- The final stage output of `sanitizeLine` contains no `\bmo\b` match. -/
theorem hasMoWord_sanitizeLine (l : List Char) :
    hasMoWord false (sanitizeLine l) = false := by
  unfold sanitizeLine
  have h1 := hasMoWord_moWord false (expandPercent (stripParenColon (stripEmoji l)))
  rw [moDot_id false _ h1]
  apply hasMoWord_addPeriod
  rw [hasMoWord_jsTrim, hasMoWord_collapseWs]
  exact h1

/-- The banned characters of the sanitizer output: emoji-range characters,
parentheses, colons and percent signs. -/
def goodChar (c : Char) : Bool :=
  !isEmojiChar c && !isParenColon c && !isPercent c

theorem mem_expandPercent {c : Char} {l : List Char}
    (h : c ∈ expandPercent l) :
    (c ∈ l ∧ isPercent c = false) ∨ c ∈ (" percent").toList := by
  induction l with
  | nil => simp [expandPercent] at h
  | cons d r ih =>
      rw [expandPercent] at h
      by_cases hd : isPercent d = true
      · rw [if_pos hd] at h
        rcases List.mem_append.mp h with h | h
        · exact Or.inr h
        · rcases ih h with ⟨h1, h2⟩ | h
          · exact Or.inl ⟨by simp [h1], h2⟩
          · exact Or.inr h
      · rw [if_neg hd] at h
        rcases List.mem_cons.mp h with h | h
        · subst h
          exact Or.inl ⟨by simp, by simpa using hd⟩
        · rcases ih h with ⟨h1, h2⟩ | h
          · exact Or.inl ⟨by simp [h1], h2⟩
          · exact Or.inr h

theorem mem_moWord {c : Char} {l : List Char} {p : Bool}
    (h : c ∈ moWord p l) : c ∈ l ∨ c ∈ ("months").toList := by
  induction p, l using moWord.induct with
  | case1 p => simp [moWord] at h
  | case2 p c1 => simpa [moWord] using Or.inl h
  | case3 p c1 c2 r hc ih =>
      rw [moWord, if_pos hc] at h
      rcases List.mem_append.mp h with h | h
      · exact Or.inr h
      · rcases ih h with h | h
        · exact Or.inl (by simp [h])
        · exact Or.inr h
  | case4 p c1 c2 r hc ih =>
      rw [moWord, if_neg hc] at h
      rcases List.mem_cons.mp h with h | h
      · exact Or.inl (by simp [h])
      · rcases ih h with h | h
        · exact Or.inl (by simp [List.mem_cons.mp h])
        · exact Or.inr h

theorem mem_moDot {c : Char} {l : List Char} {p : Bool}
    (h : c ∈ moDot p l) : c ∈ l ∨ c ∈ ("months").toList := by
  induction p, l using moDot.induct with
  | case1 p => simp [moDot] at h
  | case2 p c1 => simpa [moDot] using Or.inl h
  | case3 p c1 c2 => simpa [moDot] using Or.inl h
  | case4 p c1 c2 c3 r hc ih =>
      rw [moDot, if_pos hc] at h
      rcases List.mem_append.mp h with h | h
      · exact Or.inr h
      · rcases ih h with h | h
        · exact Or.inl (by simp [h])
        · exact Or.inr h
  | case5 p c1 c2 c3 r hc ih =>
      rw [moDot, if_neg hc] at h
      rcases List.mem_cons.mp h with h | h
      · exact Or.inl (by simp [h])
      · rcases ih h with h | h
        · exact Or.inl (List.mem_cons_of_mem c1 h)
        · exact Or.inr h

theorem mem_collapseWs {c : Char} {l : List Char} (h : c ∈ collapseWs l) :
    c ∈ l ∨ c = ' ' := by
  induction l using collapseWs.induct with
  | case1 => simp [collapseWs] at h
  | case2 d hd =>
      rw [collapseWs, if_pos hd] at h
      exact Or.inr (by simpa using h)
  | case3 d hd =>
      rw [collapseWs, if_neg hd] at h
      exact Or.inl h
  | case4 c1 c2 r hc ih =>
      rw [collapseWs, if_pos hc] at h
      rcases ih h with h | h
      · exact Or.inl (by simp [List.mem_cons.mp h])
      · exact Or.inr h
  | case5 c1 c2 r hc ih =>
      rw [collapseWs, if_neg hc] at h
      rcases List.mem_cons.mp h with h | h
      · by_cases h1 : isJsWhite c1 = true
        · rw [if_pos h1] at h
          exact Or.inr h
        · rw [if_neg h1] at h
          exact Or.inl (by simp [h])
      · rcases ih h with h | h
        · exact Or.inl (by simp [List.mem_cons.mp h])
        · exact Or.inr h

theorem mem_jsTrim {c : Char} {l : List Char} (h : c ∈ jsTrim l) : c ∈ l := by
  unfold jsTrim at h
  rw [List.mem_reverse] at h
  have h2 := (List.dropWhile_sublist _).mem h
  rw [List.mem_reverse] at h2
  exact (List.dropWhile_sublist _).mem h2

theorem mem_addPeriod {c : Char} {l : List Char} (h : c ∈ addPeriod l) :
    c ∈ l ∨ c = '.' := by
  unfold addPeriod at h
  cases hl : l.getLast? with
  | none => rw [hl] at h; exact Or.inl h
  | some d =>
      rw [hl] at h
      dsimp only at h
      by_cases hp : isEndPunct d = true
      · rw [if_pos hp] at h
        exact Or.inl h
      · rw [if_neg hp] at h
        rcases List.mem_append.mp h with h | h
        · exact Or.inl h
        · exact Or.inr (by simpa using h)

/-- Every character of a `sanitizeLine` output is outside the banned set
(no emoji-range characters, no parentheses, no colons, no percent). -/
theorem goodChar_sanitizeLine (l : List Char) :
    ∀ c ∈ sanitizeLine l, goodChar c = true := by
  intro c hc
  unfold sanitizeLine at hc
  rcases mem_addPeriod hc with hc | rfl
  case inr => decide
  rcases mem_collapseWs (mem_jsTrim hc) with hc | rfl
  case inr => decide
  rcases mem_moDot hc with hc | hm
  case inr => fin_cases hm <;> decide
  rcases mem_moWord hc with hc | hm
  case inr => fin_cases hm <;> decide
  rcases mem_expandPercent hc with ⟨hc, hpc⟩ | hm
  case inr => fin_cases hm <;> decide
  rcases List.mem_filter.mp hc with ⟨hc2, hpar⟩
  rcases List.mem_filter.mp hc2 with ⟨_, hemo⟩
  simp only [goodChar, Bool.and_eq_true]
  exact ⟨⟨by simpa using hemo, by simpa using hpar⟩, by simp [hpc]⟩

theorem expandPercent_id {l : List Char}
    (h : ∀ c ∈ l, isPercent c = false) : expandPercent l = l := by
  induction l with
  | nil => rfl
  | cons d r ih =>
      rw [expandPercent, if_neg (by simp [h d (by simp)])]
      rw [ih (fun c hc => h c (List.mem_cons_of_mem d hc))]

/-- The no-adjacent-whitespace, only-plain-spaces invariant that makes the
whitespace collapse a no-op. -/
def wsFlat (l : List Char) : Prop :=
  (∀ c ∈ l, isJsWhite c = true → c = ' ') ∧
    List.Chain' (fun a b => ¬(isJsWhite a = true ∧ isJsWhite b = true)) l

theorem wsFlat_tail {c : Char} {l : List Char} (h : wsFlat (c :: l)) :
    wsFlat l :=
  ⟨fun d hd => h.1 d (List.mem_cons_of_mem c hd), h.2.tail⟩

theorem collapseWs_id {l : List Char} (h : wsFlat l) : collapseWs l = l := by
  induction l using collapseWs.induct with
  | case1 => rfl
  | case2 d hd => rw [collapseWs, if_pos hd, h.1 d (by simp) hd]
  | case3 d hd => rw [collapseWs, if_neg hd]
  | case4 c1 c2 r hc ih =>
      exfalso
      have h12 := Bool.and_eq_true _ _ |>.mp hc
      exact (List.chain'_cons.mp h.2).1 ⟨h12.1, h12.2⟩
  | case5 c1 c2 r hc ih =>
      rw [collapseWs, if_neg hc, ih (wsFlat_tail h)]
      by_cases h1 : isJsWhite c1 = true
      · rw [if_pos h1, h.1 c1 (by simp) h1]
      · rw [if_neg h1]

theorem collapseWs_wsFlat (l : List Char) : wsFlat (collapseWs l) := by
  induction l using collapseWs.induct with
  | case1 =>
      constructor
      · intro c hc
        simp [collapseWs] at hc
      · rw [show collapseWs [] = [] from rfl]
        exact List.chain'_nil
  | case2 d hd =>
      rw [collapseWs, if_pos hd]
      exact ⟨by intro c hc _; simpa using hc, by simp⟩
  | case3 d hd =>
      rw [collapseWs, if_neg hd]
      refine ⟨?_, by simp⟩
      intro c hc hw
      have hcd : c = d := by simpa using hc
      subst hcd
      exact absurd hw (by simp [hd])
  | case4 c1 c2 r hc ih =>
      rw [collapseWs, if_pos hc]
      exact ih
  | case5 c1 c2 r hc ih =>
      rw [collapseWs, if_neg hc]
      constructor
      · intro c hcm hw
        rcases List.mem_cons.mp hcm with rfl | hcm
        · by_cases h1 : isJsWhite c1 = true
          · rw [if_pos h1]
          · rw [if_neg h1] at hw ⊢
            exact absurd hw (by simp [h1])
        · exact ih.1 c hcm hw
      · rw [List.chain'_cons']
        refine ⟨?_, ih.2⟩
        intro b hb hab
        by_cases h1 : isJsWhite c1 = true
        · rw [if_pos h1] at hab
          have h2 : isJsWhite c2 = false := by
            rcases Bool.and_eq_false_iff.mp (Bool.not_eq_true _ |>.mp hc) with h | h
            · exact absurd h1 (by simp [h])
            · exact h
          have hbc2 : c2 = b := by
            rw [collapseWs_cons_not_white h2] at hb
            simpa using hb
          rw [← hbc2] at hab
          exact absurd hab.2 (by simp [h2])
        · rw [if_neg h1] at hab
          exact absurd hab.1 (by simpa using h1)

theorem dropWhile_id_of_head {l : List Char} {p : Char → Bool}
    (h : ∀ c ∈ l.head?, p c = false) : l.dropWhile p = l := by
  cases l with
  | nil => rfl
  | cons c r =>
      rw [List.dropWhile_cons_of_neg (by simp [h c (by simp)])]

theorem head?_dropWhile_false (p : Char → Bool) (l : List Char) :
    ∀ c ∈ (l.dropWhile p).head?, p c = false := by
  induction l with
  | nil => simp
  | cons c r ih =>
      by_cases hp : p c = true
      · rw [List.dropWhile_cons_of_pos hp]
        exact ih
      · rw [List.dropWhile_cons_of_neg (by simp [hp])]
        intro d hd
        have : c = d := by simpa using hd
        subst this
        simpa using hp

theorem jsTrim_id {l : List Char}
    (h1 : ∀ c ∈ l.head?, isJsWhite c = false)
    (h2 : ∀ c ∈ l.getLast?, isJsWhite c = false) : jsTrim l = l := by
  unfold jsTrim
  rw [dropWhile_id_of_head h1]
  rw [dropWhile_id_of_head ?_, List.reverse_reverse]
  intro c hc
  rw [List.head?_reverse] at hc
  exact h2 c hc

theorem jsTrim_mid (l : List Char) : jsTrim l <:+: l := by
  unfold jsTrim
  have h1 : l.dropWhile isJsWhite <:+ l := List.dropWhile_suffix _
  have h2 : ((l.dropWhile isJsWhite).reverse.dropWhile isJsWhite).reverse <+:
      l.dropWhile isJsWhite := by
    rw [← List.reverse_suffix]
    simpa using List.dropWhile_suffix (l := (l.dropWhile isJsWhite).reverse) isJsWhite
  exact h2.isInfix.trans h1.isInfix

theorem headq_of_front {l' l : List Char} (h : l' <+: l) (hne : l' ≠ []) :
    l'.head? = l.head? := by
  obtain ⟨r, rfl⟩ := h
  cases l' with
  | nil => exact absurd rfl hne
  | cons c t => rfl

theorem jsTrim_head (l : List Char) :
    ∀ c ∈ (jsTrim l).head?, isJsWhite c = false := by
  intro c hc
  by_cases hne : jsTrim l = []
  · rw [hne] at hc; simp at hc
  · have hpre : jsTrim l <+: l.dropWhile isJsWhite := by
      unfold jsTrim
      rw [← List.reverse_suffix]
      simpa using List.dropWhile_suffix (l := (l.dropWhile isJsWhite).reverse) isJsWhite
    rw [headq_of_front hpre hne] at hc
    exact head?_dropWhile_false isJsWhite l c hc

theorem jsTrim_getLast (l : List Char) :
    ∀ c ∈ (jsTrim l).getLast?, isJsWhite c = false := by
  intro c hc
  unfold jsTrim at hc
  rw [List.getLast?_reverse] at hc
  exact head?_dropWhile_false isJsWhite _ c hc

theorem wsFlat_jsTrim {l : List Char} (h : wsFlat l) : wsFlat (jsTrim l) :=
  ⟨fun c hc => h.1 c (mem_jsTrim hc), List.Chain'.infix h.2 (jsTrim_mid l)⟩

theorem addPeriod_getLast (l : List Char) :
    ∀ c ∈ (addPeriod l).getLast?, isEndPunct c = true := by
  intro c hc
  unfold addPeriod at hc
  cases hl : l.getLast? with
  | none =>
      rw [hl] at hc
      rw [List.getLast?_eq_none_iff.mp hl] at hc
      simp at hc
  | some d =>
      rw [hl] at hc
      dsimp only at hc
      by_cases hp : isEndPunct d = true
      · rw [if_pos hp, hl] at hc
        have : d = c := by simpa using hc
        subst this
        exact hp
      · rw [if_neg hp, List.getLast?_concat] at hc
        have : '.' = c := by simpa using hc
        subst this
        decide

theorem addPeriod_head {l : List Char} {p : Char → Bool}
    (h : ∀ c ∈ l.head?, p c = false) :
    ∀ c ∈ (addPeriod l).head?, p c = false := by
  unfold addPeriod
  cases hl : l.getLast? with
  | none => exact h
  | some d =>
      dsimp only
      by_cases hp : isEndPunct d = true
      · rw [if_pos hp]; exact h
      · rw [if_neg hp]
        have hne : l ≠ [] := by
          intro he
          rw [he] at hl
          simp at hl
        cases l with
        | nil => exact absurd rfl hne
        | cons c t =>
            intro e he
            exact h e (by simpa using he)

theorem addPeriod_wsFlat {l : List Char} (h : wsFlat l) :
    wsFlat (addPeriod l) := by
  unfold addPeriod
  cases hl : l.getLast? with
  | none => exact h
  | some d =>
      dsimp only
      by_cases hp : isEndPunct d = true
      · rw [if_pos hp]; exact h
      · rw [if_neg hp]
        constructor
        · intro c hc hw
          rcases List.mem_append.mp hc with hc | hc
          · exact h.1 c hc hw
          · have : c = '.' := by simpa using hc
            subst this
            simp [isJsWhite] at hw
        · rw [List.chain'_append]
          refine ⟨h.2, by simp, ?_⟩
          intro x hx y hy
          have : '.' = y := by simpa using hy
          subst this
          intro hcon
          simp [isJsWhite] at hcon

theorem endPunct_not_white {c : Char} (h : isEndPunct c = true) :
    isJsWhite c = false := by
  simp only [isEndPunct, decide_eq_true_eq] at h
  simp only [isJsWhite, decide_eq_false_iff_not]
  omega

theorem goodChar_spec {c : Char} (h : goodChar c = true) :
    isEmojiChar c = false ∧ isParenColon c = false ∧ isPercent c = false := by
  simp only [goodChar, Bool.and_eq_true, Bool.not_eq_true'] at h
  exact ⟨h.1.1, h.1.2, h.2⟩

theorem addPeriod_id {l : List Char}
    (h : ∀ c ∈ l.getLast?, isEndPunct c = true) : addPeriod l = l := by
  unfold addPeriod
  cases hl : l.getLast? with
  | none => rfl
  | some c =>
      dsimp only
      rw [if_pos (h c (by simp [hl]))]

/-- The fixed point condition of `sanitizeLine`: every stage of the
pipeline is the identity on a string satisfying it. -/
def sanitizedStr (l : List Char) : Prop :=
  (∀ c ∈ l, goodChar c = true) ∧ hasMoWord false l = false ∧ wsFlat l ∧
    (∀ c ∈ l.head?, isJsWhite c = false) ∧
    (∀ c ∈ l.getLast?, isEndPunct c = true)

theorem sanitizeLine_of_sanitized {l : List Char} (h : sanitizedStr l) :
    sanitizeLine l = l := by
  obtain ⟨hg, hm, hf, hh, hl⟩ := h
  unfold sanitizeLine
  rw [show stripEmoji l = l from
      List.filter_eq_self.mpr (fun c hc => by simp [(goodChar_spec (hg c hc)).1])]
  rw [show stripParenColon l = l from
      List.filter_eq_self.mpr (fun c hc => by simp [(goodChar_spec (hg c hc)).2.1])]
  rw [expandPercent_id (fun c hc => (goodChar_spec (hg c hc)).2.2)]
  rw [moWord_id false l hm, moDot_id false l hm, collapseWs_id hf]
  rw [jsTrim_id hh (fun c hc => endPunct_not_white (hl c hc))]
  exact addPeriod_id hl

theorem sanitizedStr_sanitizeLine (l : List Char) :
    sanitizedStr (sanitizeLine l) := by
  refine ⟨goodChar_sanitizeLine l, hasMoWord_sanitizeLine l, ?_, ?_, ?_⟩
  · exact addPeriod_wsFlat (wsFlat_jsTrim (collapseWs_wsFlat _))
  · exact addPeriod_head (jsTrim_head _)
  · exact addPeriod_getLast _

/-- C4: `sanitizeLine` is idempotent on every string. -/
theorem sanitizeLine_idempotent (s : String) :
    sanitizeLineS (sanitizeLineS s) = sanitizeLineS s := by
  have h : sanitizeLine ((sanitizeLineS s).toList) = sanitizeLine s.toList := by
    have he : (sanitizeLineS s).toList = sanitizeLine s.toList := rfl
    rw [he]
    exact sanitizeLine_of_sanitized (sanitizedStr_sanitizeLine s.toList)
  show (⟨sanitizeLine ((sanitizeLineS s).toList)⟩ : String) =
    (⟨sanitizeLine s.toList⟩ : String)
  rw [h]

/-- C5 (amended): every character of a `sanitizeLine` output is outside
the banned set actually removed by the code — the two emoji ranges,
parentheses, colons and percent signs. -/
theorem sanitizeLine_output_clean (s : String) :
    ((sanitizeLineS s).toList.all goodChar) = true := by
  rw [List.all_eq_true]
  exact fun c hc => goodChar_sanitizeLine s.toList c hc

/-- C5 counterexample: the slash is NOT removed — the claim's banned set
includes '/', but sanitizing a string with a slash keeps it. -/
theorem sanitizeLine_keeps_slash :
    sanitizeLineS ("a/b") = ("a/b.") ∧
      '/' ∈ (sanitizeLineS ("a/b")).toList := by
  constructor
  · decide
  · decide

/-! Non-emptiness of the local fallback (C8). -/

/-- A character that survives every sanitizer stage unchanged: a word
character other than m/M/o/O (so it is never filtered, expanded, matched
or collapsed). -/
def keepChar (c : Char) : Bool := isWordChar c && !isMoM c && !isMoO c

theorem keepChar_spec {c : Char} (h : keepChar c = true) :
    isWordChar c = true ∧ isMoM c = false ∧ isMoO c = false ∧
      isEmojiChar c = false ∧ isParenColon c = false ∧ isPercent c = false ∧
      isJsWhite c = false := by
  simp only [keepChar, Bool.and_eq_true, Bool.not_eq_true'] at h
  obtain ⟨⟨hw, hm⟩, ho⟩ := h
  refine ⟨hw, hm, ho, ?_, ?_, ?_, ?_⟩ <;>
    (simp only [isWordChar, decide_eq_true_eq] at hw) <;>
    simp only [isEmojiChar, isParenColon, isPercent, isJsWhite,
      decide_eq_false_iff_not] <;>
    omega

theorem keep_mem_moWord {c : Char} {l : List Char} {p : Bool}
    (hc : keepChar c = true) (h : c ∈ l) : c ∈ moWord p l := by
  induction p, l using moWord.induct with
  | case1 p => simp at h
  | case2 p c1 => simpa [moWord] using h
  | case3 p c1 c2 r hic ih =>
      rw [moWord, if_pos hic]
      simp only [Bool.and_eq_true] at hic
      rcases List.mem_cons.mp h with rfl | h
      · exact absurd hic.1.1.2 (by simp [(keepChar_spec hc).2.1])
      · rcases List.mem_cons.mp h with rfl | h
        · exact absurd hic.1.2 (by simp [(keepChar_spec hc).2.2.1])
        · exact List.mem_append_right _ (ih h)
  | case4 p c1 c2 r hic ih =>
      rw [moWord, if_neg hic]
      rcases List.mem_cons.mp h with rfl | h
      · exact List.mem_cons_self _ _
      · exact List.mem_cons_of_mem _ (ih h)

theorem keep_mem_moDot {c : Char} {l : List Char} {p : Bool}
    (hc : keepChar c = true) (h : c ∈ l) : c ∈ moDot p l := by
  induction p, l using moDot.induct with
  | case1 p => simp at h
  | case2 p c1 => simpa [moDot] using h
  | case3 p c1 c2 => simpa [moDot] using h
  | case4 p c1 c2 c3 r hic ih =>
      rw [moDot, if_pos hic]
      simp only [Bool.and_eq_true] at hic
      rcases List.mem_cons.mp h with rfl | h
      · exact absurd hic.1.1.2 (by simp [(keepChar_spec hc).2.1])
      · rcases List.mem_cons.mp h with rfl | h
        · exact absurd hic.1.2 (by simp [(keepChar_spec hc).2.2.1])
        · rcases List.mem_cons.mp h with rfl | h
          · exfalso
            have h46 : c.toNat = 46 := by simpa using hic.2
            have := (keepChar_spec hc).1
            simp only [isWordChar, decide_eq_true_eq] at this
            omega
          · exact List.mem_append_right _ (ih h)
  | case5 p c1 c2 c3 r hic ih =>
      rw [moDot, if_neg hic]
      rcases List.mem_cons.mp h with rfl | h
      · exact List.mem_cons_self _ _
      · exact List.mem_cons_of_mem _ (ih h)

theorem keep_mem_expandPercent {c : Char} {l : List Char}
    (hc : keepChar c = true) (h : c ∈ l) : c ∈ expandPercent l := by
  induction l with
  | nil => simp at h
  | cons d r ih =>
      rw [expandPercent]
      by_cases hd : isPercent d = true
      · rw [if_pos hd]
        rcases List.mem_cons.mp h with rfl | h
        · exact absurd hd (by simp [(keepChar_spec hc).2.2.2.2.2.1])
        · exact List.mem_append_right _ (ih h)
      · rw [if_neg hd]
        rcases List.mem_cons.mp h with rfl | h
        · exact List.mem_cons_self _ _
        · exact List.mem_cons_of_mem _ (ih h)

theorem keep_mem_collapseWs {c : Char} {l : List Char}
    (hc : keepChar c = true) (h : c ∈ l) : c ∈ collapseWs l := by
  have hw : isJsWhite c = false := (keepChar_spec hc).2.2.2.2.2.2
  induction l using collapseWs.induct with
  | case1 => simp at h
  | case2 d hd =>
      have : c = d := by simpa using h
      subst this
      exact absurd hd (by simp [hw])
  | case3 d hd =>
      rw [collapseWs, if_neg hd]
      exact h
  | case4 c1 c2 r hic ih =>
      rw [collapseWs, if_pos hic]
      rcases List.mem_cons.mp h with rfl | h
      · exact absurd (Bool.and_eq_true _ _ |>.mp hic).1 (by simp [hw])
      · exact ih h
  | case5 c1 c2 r hic ih =>
      rw [collapseWs, if_neg hic]
      rcases List.mem_cons.mp h with rfl | h
      · rw [if_neg (by simp [hw])]
        exact List.mem_cons_self _ _
      · exact List.mem_cons_of_mem _ (ih h)

theorem mem_dropWhile_of_not {c : Char} {l : List Char} {p : Char → Bool}
    (h : c ∈ l) (hc : p c = false) : c ∈ l.dropWhile p := by
  induction l with
  | nil => simp at h
  | cons d r ih =>
      by_cases hd : p d = true
      · rw [List.dropWhile_cons_of_pos hd]
        rcases List.mem_cons.mp h with rfl | h
        · rw [hd] at hc; simp at hc
        · exact ih h
      · rw [List.dropWhile_cons_of_neg (by simp [hd])]
        exact h

theorem keep_mem_jsTrim {c : Char} {l : List Char}
    (hc : keepChar c = true) (h : c ∈ l) : c ∈ jsTrim l := by
  have hw : isJsWhite c = false := (keepChar_spec hc).2.2.2.2.2.2
  unfold jsTrim
  rw [List.mem_reverse]
  apply mem_dropWhile_of_not _ hw
  rw [List.mem_reverse]
  exact mem_dropWhile_of_not h hw

theorem keep_mem_addPeriod {c : Char} {l : List Char} (h : c ∈ l) :
    c ∈ addPeriod l := by
  unfold addPeriod
  cases hl : l.getLast? with
  | none => exact h
  | some d =>
      dsimp only
      by_cases hp : isEndPunct d = true
      · rw [if_pos hp]; exact h
      · rw [if_neg hp]
        exact List.mem_append_left _ h

/-- A keep-character of the input survives into the sanitizer output. -/
theorem keep_mem_sanitizeLine {c : Char} {l : List Char}
    (hc : keepChar c = true) (h : c ∈ l) : c ∈ sanitizeLine l := by
  unfold sanitizeLine
  apply keep_mem_addPeriod
  apply keep_mem_jsTrim hc
  apply keep_mem_collapseWs hc
  apply keep_mem_moDot hc
  apply keep_mem_moWord hc
  apply keep_mem_expandPercent hc
  · rw [stripParenColon, List.mem_filter]
    refine ⟨?_, by simp [(keepChar_spec hc).2.2.2.2.1]⟩
    rw [stripEmoji, List.mem_filter]
    exact ⟨h, by simp [(keepChar_spec hc).2.2.2.1]⟩

/-- `shorten` of a string containing a keep-character is never empty. -/
theorem shortenL_ne_nil {l : List Char} {maxLen : ℕ} {c : Char}
    (hc : keepChar c = true) (h : c ∈ l) : shortenL l maxLen ≠ [] := by
  unfold shortenL
  by_cases hlen : (jsTrim l).length ≤ maxLen
  · rw [if_pos hlen]
    exact List.ne_nil_of_mem (keep_mem_jsTrim hc h)
  · rw [if_neg hlen]
    simp

theorem headlineFor_sanitized_ne (s : String) :
    sanitizeLineS (headlineFor s) ≠ ("") := by
  unfold headlineFor
  split_ifs <;> decide

theorem adviceLine1_keep (m : Metrics) :
    ∃ c, keepChar c = true ∧ c ∈ adviceLine1 m := by
  unfold adviceLine1
  split_ifs
  · exact ⟨'Y', by decide,
      List.mem_append_left _ (List.mem_append_left _ (by decide))⟩
  · exact ⟨'Y', by decide,
      List.mem_append_left _ (List.mem_append_left _ (by decide))⟩
  · exact ⟨'Y', by decide, by decide⟩

theorem adviceLine2_keep (m : Metrics) :
    ∃ c, keepChar c = true ∧ c ∈ adviceLine2 m := by
  unfold adviceLine2
  split_ifs
  · exact ⟨'T', by decide,
      List.mem_append_left _ (List.mem_append_left _ (by decide))⟩
  · exact ⟨'R', by decide,
      List.mem_append_left _ (List.mem_append_left _ (by decide))⟩
  · exact ⟨'C', by decide, by decide⟩

theorem adviceLine3_keep (m : Metrics) :
    ∃ c, keepChar c = true ∧ c ∈ adviceLine3 m := by
  unfold adviceLine3
  split_ifs
  · exact ⟨'S', by decide,
      List.mem_append_left _ (List.mem_append_left _ (by decide))⟩
  · exact ⟨'T', by decide, by decide⟩

theorem shortenS_sanitize_ne {l : List Char} {c : Char}
    (hc : keepChar c = true) (h : c ∈ l) :
    shortenS (sanitizeLineS ⟨l⟩) 96 ≠ ("") := by
  intro he
  have : shortenL (sanitizeLine l) 96 = [] := by
    have := congrArg String.toList he
    simpa [shortenS] using this
  exact shortenL_ne_nil hc (keep_mem_sanitizeLine hc h) this

/-- C8: for every input record, the local fallback returns a non-empty
headline and exactly 3 advice strings, every one of them non-empty. -/
theorem computeLocalFallback_wellformed (inputs : RawInputs) :
    (computeLocalFallback inputs).headline ≠ ("") ∧
      (computeLocalFallback inputs).advice.length = 3 ∧
      ((computeLocalFallback inputs).advice.all (fun a => a != (""))) = true := by
  refine ⟨headlineFor_sanitized_ne _, rfl, ?_⟩
  show (List.all [_, _, _] _) = true
  simp only [List.all_cons, List.all_nil, Bool.and_eq_true, Bool.and_true,
    bne_iff_ne]
  obtain ⟨c1, hc1, hm1⟩ := adviceLine1_keep (localMetrics inputs)
  obtain ⟨c2, hc2, hm2⟩ := adviceLine2_keep (localMetrics inputs)
  obtain ⟨c3, hc3, hm3⟩ := adviceLine3_keep (localMetrics inputs)
  exact ⟨shortenS_sanitize_ne hc1 hm1, shortenS_sanitize_ne hc2 hm2,
    shortenS_sanitize_ne hc3 hm3⟩

/-! Digit rendering facts (C9). -/

/-- The ASCII digit class. -/
def isDigitChar (c : Char) : Bool := decide (48 ≤ c.toNat ∧ c.toNat ≤ 57)

/-- Whether a string embeds at least one digit. -/
def hasDigit (s : String) : Bool := s.toList.any isDigitChar

theorem digit_keep {c : Char} (h : isDigitChar c = true) :
    keepChar c = true := by
  simp only [isDigitChar, decide_eq_true_eq] at h
  simp only [keepChar, isWordChar, isMoM, isMoO, Bool.and_eq_true,
    Bool.not_eq_true', decide_eq_true_eq, decide_eq_false_iff_not]
  omega

theorem digit_good {c : Char} (h : isDigitChar c = true) :
    goodChar c = true := by
  simp only [isDigitChar, decide_eq_true_eq] at h
  simp only [goodChar, isEmojiChar, isParenColon, isPercent, Bool.and_eq_true,
    Bool.not_eq_true', decide_eq_false_iff_not]
  omega

theorem digitChar_isDigit {n : ℕ} (h : n < 10) :
    isDigitChar (digitChar n) = true := by
  interval_cases n <;> decide

theorem natChars_digits (fuel n : ℕ) (acc : List Char)
    (hacc : ∀ c ∈ acc, isDigitChar c = true) :
    ∀ c ∈ natChars fuel n acc, isDigitChar c = true := by
  induction fuel generalizing n acc with
  | zero =>
      intro c hc
      rcases List.mem_cons.mp hc with rfl | hc
      · exact digitChar_isDigit (Nat.mod_lt _ (by omega))
      · exact hacc c hc
  | succ fuel ih =>
      intro c hc
      rw [natChars] at hc
      by_cases hn : n < 10
      · rw [if_pos hn] at hc
        rcases List.mem_cons.mp hc with rfl | hc
        · exact digitChar_isDigit hn
        · exact hacc c hc
      · rw [if_neg hn] at hc
        refine ih (n / 10) _ ?_ c hc
        intro d hd
        rcases List.mem_cons.mp hd with rfl | hd
        · exact digitChar_isDigit (Nat.mod_lt _ (by omega))
        · exact hacc d hd

theorem natStr_digits (n : ℕ) : ∀ c ∈ natStr n, isDigitChar c = true :=
  natChars_digits n n [] (by simp)

theorem natChars_ne_nil (fuel n : ℕ) (acc : List Char) :
    natChars fuel n acc ≠ [] := by
  cases fuel with
  | zero => simp [natChars]
  | succ fuel =>
      rw [natChars]
      by_cases hn : n < 10
      · rw [if_pos hn]; simp
      · rw [if_neg hn]
        induction fuel generalizing n acc with
        | zero => simp [natChars]
        | succ fuel ih =>
            rw [natChars]
            by_cases h2 : n / 10 < 10
            · rw [if_pos h2]; simp
            · rw [if_neg h2]
              exact ih _ _ (by omega)

theorem natStr_ne_nil (n : ℕ) : natStr n ≠ [] := natChars_ne_nil n n []

theorem natChars_length_le (fuel : ℕ) : ∀ (n k : ℕ) (acc : List Char),
    1 ≤ k → n < 10 ^ k → (natChars fuel n acc).length ≤ k + acc.length := by
  induction fuel with
  | zero =>
      intro n k acc hk _
      simp only [natChars, List.length_cons]
      omega
  | succ fuel ih =>
      intro n k acc hk hn
      rw [natChars]
      by_cases h10 : n < 10
      · rw [if_pos h10]
        simp only [List.length_cons]
        omega
      · rw [if_neg h10]
        have hk2 : 2 ≤ k := by
          by_contra hcon
          have : k = 1 := by omega
          rw [this] at hn
          simp at hn
          omega
        have hdiv : n / 10 < 10 ^ (k - 1) := by
          have h1 : n < 10 ^ k := hn
          have h2 : 10 ^ k = 10 ^ (k - 1) * 10 := by
            rw [← pow_succ]
            congr 1
            omega
          rw [h2] at h1
          exact Nat.div_lt_of_lt_mul (by omega)
        have := ih (n / 10) (k - 1) (digitChar (n % 10) :: acc) (by omega) hdiv
        simp only [List.length_cons] at this
        omega

theorem natStr_length_le {n k : ℕ} (hk : 1 ≤ k) (h : n < 10 ^ k) :
    (natStr n).length ≤ k := by
  have := natChars_length_le n n k [] hk h
  simpa [natStr] using this

theorem digit_not_m {c : Char} (h : isDigitChar c = true) : isMoM c = false := by
  simp only [isDigitChar, decide_eq_true_eq] at h
  simp only [isMoM, decide_eq_false_iff_not]
  omega

theorem digit_word {c : Char} (h : isDigitChar c = true) :
    isWordChar c = true := by
  simp only [isDigitChar, decide_eq_true_eq] at h
  simp only [isWordChar, decide_eq_true_eq]
  omega

/-- Scanning a non-empty run of digits reduces to scanning the rest with a
word character behind. -/
theorem hasMoWord_digits_append {D : List Char}
    (hD : ∀ c ∈ D, isDigitChar c = true) (hne : D ≠ []) (w : Bool)
    (B : List Char) : hasMoWord w (D ++ B) = hasMoWord true B := by
  induction D generalizing w with
  | nil => exact absurd rfl hne
  | cons d D' ih =>
      have hd := hD d (by simp)
      rw [List.cons_append, hasMoWord_cons, digit_not_m hd, digit_word hd]
      simp only [Bool.and_false, Bool.false_and, Bool.and_true, Bool.false_or]
      cases D' with
      | nil => simp
      | cons e D'' =>
          exact ih (fun c hc => hD c (List.mem_cons_of_mem d hc)) (by simp) true

theorem length_collapseWs_le (l : List Char) :
    (collapseWs l).length ≤ l.length := by
  induction l using collapseWs.induct with
  | case1 => simp [collapseWs]
  | case2 d hd => rw [collapseWs, if_pos hd]; simp
  | case3 d hd => rw [collapseWs, if_neg hd]
  | case4 c1 c2 r hc ih =>
      rw [collapseWs, if_pos hc]
      simp only [List.length_cons] at ih ⊢
      omega
  | case5 c1 c2 r hc ih =>
      rw [collapseWs, if_neg hc]
      simp only [List.length_cons] at ih ⊢
      omega

theorem length_jsTrim_le (l : List Char) : (jsTrim l).length ≤ l.length := by
  unfold jsTrim
  calc ((l.dropWhile isJsWhite).reverse.dropWhile isJsWhite).reverse.length
      = ((l.dropWhile isJsWhite).reverse.dropWhile isJsWhite).length := by
        rw [List.length_reverse]
    _ ≤ (l.dropWhile isJsWhite).reverse.length := (List.dropWhile_sublist _).length_le
    _ = (l.dropWhile isJsWhite).length := by rw [List.length_reverse]
    _ ≤ l.length := (List.dropWhile_sublist _).length_le

theorem length_addPeriod_le (l : List Char) :
    (addPeriod l).length ≤ l.length + 1 := by
  unfold addPeriod
  cases hl : l.getLast? with
  | none => dsimp only; omega
  | some d =>
      dsimp only
      by_cases hp : isEndPunct d = true
      · rw [if_pos hp]; omega
      · rw [if_neg hp]; simp

/-- On a "clean" template — no banned characters and no `\bmo\b` match —
the sanitizer reduces to whitespace normalisation plus the final period,
so its length grows by at most one. -/
theorem sanitizeLine_clean {l : List Char}
    (hgood : ∀ c ∈ l, goodChar c = true)
    (hmo : hasMoWord false l = false) :
    sanitizeLine l = addPeriod (jsTrim (collapseWs l)) := by
  unfold sanitizeLine
  rw [show stripEmoji l = l from
      List.filter_eq_self.mpr (fun c hc => by simp [(goodChar_spec (hgood c hc)).1])]
  rw [show stripParenColon l = l from
      List.filter_eq_self.mpr (fun c hc => by simp [(goodChar_spec (hgood c hc)).2.1])]
  rw [expandPercent_id (fun c hc => (goodChar_spec (hgood c hc)).2.2)]
  rw [moWord_id false l hmo, moDot_id false l hmo]

theorem mk_toList (l : List Char) : (String.mk l).toList = l := rfl

theorem sanitizeLineS_toList (s : String) :
    (sanitizeLineS s).toList = sanitizeLine s.toList := rfl

theorem shortenS_toList (s : String) (n : ℕ) :
    (shortenS s n).toList = shortenL s.toList n := rfl

/-- Master lemma for a numeric advice branch: a template made of clean
concrete text around a non-empty digit block, with total length at most
95, renders (after sanitizing and shortening) to a string that still
embeds a digit. -/
theorem shorten_sanitize_hasDigit {l : List Char} {c : Char}
    (hc : isDigitChar c = true) (hmem : c ∈ l)
    (hgood : ∀ e ∈ l, goodChar e = true)
    (hmo : hasMoWord false l = false)
    (hlen : l.length ≤ 95) :
    hasDigit (shortenS (sanitizeLineS ⟨l⟩) 96) = true := by
  have hsan : sanitizeLine l = addPeriod (jsTrim (collapseWs l)) :=
    sanitizeLine_clean hgood hmo
  have hslen : (sanitizeLine l).length ≤ 96 := by
    rw [hsan]
    calc (addPeriod (jsTrim (collapseWs l))).length
        ≤ (jsTrim (collapseWs l)).length + 1 := length_addPeriod_le _
      _ ≤ (collapseWs l).length + 1 := by
          have := length_jsTrim_le (collapseWs l)
          omega
      _ ≤ l.length + 1 := by
          have := length_collapseWs_le l
          omega
      _ ≤ 96 := by omega
  have hd1 : c ∈ sanitizeLine l :=
    keep_mem_sanitizeLine (digit_keep hc) hmem
  have hd2 : c ∈ jsTrim (sanitizeLine l) :=
    keep_mem_jsTrim (digit_keep hc) hd1
  have hcond : (jsTrim (sanitizeLine l)).length ≤ 96 := by
    have := length_jsTrim_le (sanitizeLine l)
    omega
  have hshort : shortenL (sanitizeLine l) 96 = jsTrim (sanitizeLine l) := by
    unfold shortenL
    rw [if_pos hcond]
  unfold hasDigit
  rw [shortenS_toList, sanitizeLineS_toList, mk_toList, hshort,
    List.any_eq_true]
  exact ⟨c, hd2, hc⟩

/-- A sufficient, position-independent condition for `\bmo\b`-match
freedom: at no position does an m stand before an o with a word boundary
after it (the boundary before the m is ignored, making the condition
closed under any prefix context). -/
def moSafe : List Char → Bool
  | c1 :: c2 :: rest =>
      !(isMoM c1 && isMoO c2 && boundaryAfter rest) && moSafe (c2 :: rest)
  | _ => true

theorem moSafe_cons_cons (c1 c2 : Char) (r : List Char) :
    moSafe (c1 :: c2 :: r) =
      (!(isMoM c1 && isMoO c2 && boundaryAfter r) && moSafe (c2 :: r)) := rfl

theorem hasMoWord_eq_false_of_moSafe {l : List Char} (h : moSafe l = true)
    (p : Bool) : hasMoWord p l = false := by
  induction l generalizing p with
  | nil => rfl
  | cons c1 t ih =>
      cases t with
      | nil => rfl
      | cons c2 r =>
          rw [moSafe_cons_cons, Bool.and_eq_true] at h
          rw [hasMoWord, Bool.or_eq_false_iff]
          constructor
          · have hdis := h.1
            rw [Bool.not_eq_true', Bool.and_eq_false_iff,
              Bool.and_eq_false_iff] at hdis
            rcases hdis with (hy | hy) | hy <;> simp [hy]
          · exact ih h.2 (isWordChar c1)

theorem moSafe_cons_notM {c : Char} (h : isMoM c = false)
    {t : List Char} (ht : moSafe t = true) : moSafe (c :: t) = true := by
  cases t with
  | nil => rfl
  | cons x t' =>
      rw [moSafe_cons_cons, Bool.and_eq_true]
      exact ⟨by simp [h], ht⟩

theorem moSafe_tail {c : Char} {t : List Char} (h : moSafe (c :: t) = true) :
    moSafe t = true := by
  cases t with
  | nil => rfl
  | cons x t' =>
      rw [moSafe_cons_cons, Bool.and_eq_true] at h
      exact h.2

theorem moSafe_append {A t : List Char} (hA : moSafe A = true)
    (hlast : ∀ c ∈ A.getLast?, isMoM c = false) (ht : moSafe t = true) :
    moSafe (A ++ t) = true := by
  induction A with
  | nil => exact ht
  | cons a1 A' ih =>
      cases A' with
      | nil =>
          rw [List.cons_append, List.nil_append]
          exact moSafe_cons_notM (hlast a1 (by simp)) ht
      | cons a2 A'' =>
          have hih : moSafe ((a2 :: A'') ++ t) = true :=
            ih (moSafe_tail hA) (by simpa using hlast)
          rw [List.cons_append] at hih
          rw [List.cons_append, List.cons_append]
          rw [moSafe_cons_cons, Bool.and_eq_true]
          refine ⟨?_, hih⟩
          have hc : (!(isMoM a1 && isMoO a2 && boundaryAfter A'')) = true := by
            rw [moSafe_cons_cons, Bool.and_eq_true] at hA
            exact hA.1
          rw [Bool.not_eq_true', Bool.and_eq_false_iff,
            Bool.and_eq_false_iff] at hc
          rw [Bool.not_eq_true', Bool.and_eq_false_iff, Bool.and_eq_false_iff]
          rcases hc with (hy | hy) | hy
          · exact Or.inl (Or.inl hy)
          · exact Or.inl (Or.inr hy)
          · cases A'' with
            | nil => simp [boundaryAfter] at hy
            | cons a3 A3 =>
                right
                simpa [boundaryAfter, List.cons_append] using hy

theorem moSafe_digits_append {D : List Char}
    (hD : ∀ c ∈ D, isDigitChar c = true) (B : List Char)
    (hB : moSafe B = true) : moSafe (D ++ B) = true := by
  induction D with
  | nil => exact hB
  | cons d D' ih =>
      rw [List.cons_append]
      apply moSafe_cons_notM (digit_not_m (hD d (by simp)))
      exact ih (fun c hc => hD c (List.mem_cons_of_mem d hc))

/-- Master template lemma: concrete clean text around a digit-carrying
block renders, after sanitize + shorten, to a string that still has a
digit. -/
theorem template_hasDigit {A B D : List Char}
    (hAg : A.all goodChar = true) (hBg : B.all goodChar = true)
    (hDg : ∀ c ∈ D, goodChar c = true)
    (hdig : ∃ c ∈ D, isDigitChar c = true)
    (hAs : moSafe A = true)
    (hAl : ∀ c ∈ A.getLast?, isMoM c = false)
    (hDBs : moSafe (D ++ B) = true)
    (hlen : A.length + D.length + B.length ≤ 95) :
    hasDigit (shortenS (sanitizeLineS ⟨A ++ D ++ B⟩) 96) = true := by
  obtain ⟨c, hcD, hc⟩ := hdig
  apply shorten_sanitize_hasDigit hc
  · exact List.mem_append_left _ (List.mem_append_right _ hcD)
  · intro e he
    rcases List.mem_append.mp he with he | he
    · rcases List.mem_append.mp he with he | he
      · exact List.all_eq_true.mp hAg e he
      · exact hDg e he
    · exact List.all_eq_true.mp hBg e he
  · apply hasMoWord_eq_false_of_moSafe
    rw [List.append_assoc]
    exact moSafe_append hAs hAl hDBs
  · simp only [List.length_append]
    omega

theorem roundQ_nonneg {q : ℚ} (h : 0 ≤ q) : 0 ≤ roundQ q := by
  unfold roundQ
  rw [Int.le_floor]
  norm_num
  linarith

theorem roundQ_le_of_le {q : ℚ} {M : ℤ} (h : q ≤ M) : roundQ q ≤ M := by
  unfold roundQ
  rw [Int.floor_le_iff]
  linarith

theorem intStr_nonneg {z : ℤ} (h : 0 ≤ z) : intStr z = natStr z.natAbs := by
  unfold intStr
  rw [if_neg (by omega)]

/-- The digit string of a bounded non-negative integer: all digits,
non-empty, short. -/
theorem natAbs_natStr_bound {z : ℤ} {k : ℕ} (h0 : 0 ≤ z)
    (h : z < 10 ^ k) (hk : 1 ≤ k) :
    (∀ c ∈ natStr z.natAbs, isDigitChar c = true) ∧ natStr z.natAbs ≠ [] ∧
      (natStr z.natAbs).length ≤ k := by
  refine ⟨natStr_digits _, natStr_ne_nil _, ?_⟩
  apply natStr_length_le hk
  have : (10 : ℤ) ^ k = ((10 ^ k : ℕ) : ℤ) := by push_cast; ring
  omega

theorem advice1_ok (m : Metrics) (qb qr : ℚ)
    (hb : m.budget_ratio = .fin qb) (hb0 : 0 ≤ qb)
    (hr : m.runway_months = .fin qr) (hr0 : 0 ≤ qr) (hr1 : qr ≤ 10 ^ 14) :
    hasDigit (shortenS (sanitizeLineS ⟨adviceLine1 m⟩) 96) = true ∨
      shortenS (sanitizeLineS ⟨adviceLine1 m⟩) 96 =
        ("You picked a clear place to start and that is good.") := by
  unfold adviceLine1
  rw [hb, hr]
  by_cases h1 : jsLe (JSNum.fin qb) (jq 0.8) = true
  · rw [if_pos h1]
    left
    have hqb : qb ≤ 4 / 5 := by
      have h1' := h1
      simp only [jsLe, jq, decide_eq_true_eq] at h1'
      norm_num at h1'
      exact h1' 
    have hz0 : 0 ≤ roundQ (qb * 100) := roundQ_nonneg (by positivity)
    have hz1 : roundQ (qb * 100) < 10 ^ 2 := by
      have : roundQ (qb * 100) ≤ 80 := roundQ_le_of_le (by push_cast; linarith)
      omega
    obtain ⟨hdg, hne, hlen⟩ := natAbs_natStr_bound hz0 hz1 (by omega)
    have hshape : ("Your spending is ").toList ++ pctS (.fin qb) ++
        (" which is under the target.").toList =
        ("Your spending is ").toList ++ natStr (roundQ (qb * 100)).natAbs ++
          ((" percent").toList ++ (" which is under the target.").toList) := by
      simp only [pctS, intStr_nonneg hz0, List.append_assoc]
    rw [hshape]
    apply template_hasDigit
    · decide
    · decide
    · exact fun c hc => digit_good (hdg c hc)
    · obtain ⟨c, hc⟩ := List.exists_mem_of_ne_nil _ hne
      exact ⟨c, hc, hdg c hc⟩
    · decide
    · decide
    · exact moSafe_digits_append hdg _ (by decide)
    · have hA : (("Your spending is ").toList).length = 17 := by decide
      have hB : (((" percent").toList ++
          (" which is under the target.").toList)).length = 35 := by decide
      omega
  · rw [if_neg h1]
    by_cases h2 : jsGe (JSNum.fin qr) (jq 3) = true
    · rw [if_pos h2]
      left
      have hn0 : 0 ≤ roundQ (qr * 10) := roundQ_nonneg (by positivity)
      have hn1 : roundQ (qr * 10) ≤ 10 ^ 15 := by
        apply roundQ_le_of_le
        push_cast
        linarith
      have hfix : toFixed1 (.fin qr) =
          natStr ((roundQ (qr * 10)).natAbs / 10) ++
            '.' :: natStr ((roundQ (qr * 10)).natAbs % 10) := by
        simp only [toFixed1, if_neg (by omega : ¬roundQ (qr * 10) < 0),
          List.nil_append]
      have ha : ((roundQ (qr * 10)).natAbs / 10) < 10 ^ 15 := by omega
      have hb10 : ((roundQ (qr * 10)).natAbs % 10) < 10 ^ 1 := by
        have := Nat.mod_lt (roundQ (qr * 10)).natAbs (by omega : 0 < 10)
        simpa using this
      have hshape : ("You have ").toList ++ toFixed1 (.fin qr) ++
          (" months of runway which is a good base.").toList =
          ("You have ").toList ++ natStr ((roundQ (qr * 10)).natAbs / 10) ++
            ('.' :: (natStr ((roundQ (qr * 10)).natAbs % 10) ++
              (" months of runway which is a good base.").toList)) := by
        rw [hfix]
        simp only [List.append_assoc, List.cons_append]
      rw [hshape]
      apply template_hasDigit
      · decide
      · -- tail block: '.' then digits then concrete text
        rw [List.all_cons]
        refine (Bool.and_eq_true _ _).mpr ⟨by decide, ?_⟩
        rw [List.all_append]
        refine (Bool.and_eq_true _ _).mpr ⟨?_, by decide⟩
        rw [List.all_eq_true]
        exact fun c hc => digit_good (natStr_digits _ c hc)
      · exact fun c hc => digit_good (natStr_digits _ c hc)
      · obtain ⟨c, hc⟩ := List.exists_mem_of_ne_nil _ (natStr_ne_nil
          ((roundQ (qr * 10)).natAbs / 10))
        exact ⟨c, hc, natStr_digits _ c hc⟩
      · decide
      · decide
      · apply moSafe_digits_append (natStr_digits _)
        apply moSafe_cons_notM (by decide)
        exact moSafe_digits_append (natStr_digits _) _ (by decide)
      · have hA : (("You have ").toList).length = 9 := by decide
        have hB : ((" months of runway which is a good base.").toList).length = 39 := by
          decide
        have hla : (natStr ((roundQ (qr * 10)).natAbs / 10)).length ≤ 15 :=
          natStr_length_le (by omega) ha
        have hlb : (natStr ((roundQ (qr * 10)).natAbs % 10)).length ≤ 1 :=
          natStr_length_le (by omega) hb10
        simp only [List.length_cons, List.length_append]
        omega
    · rw [if_neg h2]
      right
      decide

theorem numStr_intCast (z : ℤ) : numStr (.fin (z : ℚ)) = intStr z := by
  show (if ((z : ℚ)).den = 1 then intStr ((z : ℚ)).num
    else intStr ((z : ℚ)).num ++ '/' :: natStr ((z : ℚ)).den) = intStr z
  rw [if_pos (Rat.den_intCast z), Rat.num_intCast]

theorem advice2_ok (m : Metrics) (qb qi : ℚ)
    (hb : m.budget_ratio = .fin qb) (hb2 : qb ≤ 10 ^ 14)
    (hi : m.invest_rate = .fin qi) (hi0 : 0 ≤ qi) (hi2 : qi ≤ 10 ^ 14) :
    hasDigit (shortenS (sanitizeLineS ⟨adviceLine2 m⟩) 96) = true ∨
      shortenS (sanitizeLineS ⟨adviceLine2 m⟩) 96 =
        ("Choose one category to cut this week and stick to it.") := by
  unfold adviceLine2
  rw [hb, hi]
  by_cases h1 : jsGt (JSNum.fin qb) (jq 0.9) = true
  · rw [if_pos h1]
    left
    have hqb : 9 / 10 < qb := by
      have h1' := h1
      simp only [jsGt, jsLt, jq, decide_eq_true_eq] at h1'
      norm_num at h1'
      exact h1'
    have hval : jsCeil (jsMul (jsSub (JSNum.fin qb) (jq 0.9)) (jq 100)) =
        .fin ((⌈(qb - 0.9) * 100⌉ : ℤ) : ℚ) := by
      simp [jsSub, jsMul, jsCeil, jq]
    have hz0 : 0 ≤ ⌈(qb - 0.9) * 100⌉ := by
      apply Int.ceil_nonneg
      norm_num
      nlinarith
    have hz1 : ⌈(qb - 0.9) * 100⌉ < 10 ^ 17 := by
      have : ⌈(qb - 0.9) * 100⌉ ≤ 10 ^ 16 := by
        rw [Int.ceil_le]
        push_cast
        norm_num
        nlinarith
      omega
    obtain ⟨hdg, hne, hlen⟩ := natAbs_natStr_bound hz0 hz1 (by omega)
    have hshape : ("Trim spending by about ").toList ++
        numStr (jsCeil (jsMul (jsSub (JSNum.fin qb) (jq 0.9)) (jq 100))) ++
        (" percent to reach ninety percent.").toList =
        ("Trim spending by about ").toList ++
          natStr (⌈(qb - 0.9) * 100⌉ : ℤ).natAbs ++
          (" percent to reach ninety percent.").toList := by
      rw [hval, numStr_intCast, intStr_nonneg hz0]
    rw [hshape]
    apply template_hasDigit
    · decide
    · decide
    · exact fun c hc => digit_good (hdg c hc)
    · obtain ⟨c, hc⟩ := List.exists_mem_of_ne_nil _ hne
      exact ⟨c, hc, hdg c hc⟩
    · decide
    · decide
    · exact moSafe_digits_append hdg _ (by decide)
    · have hA : (("Trim spending by about ").toList).length = 23 := by decide
      have hB : ((" percent to reach ninety percent.").toList).length = 33 := by
        decide
      omega
  · rw [if_neg h1]
    by_cases h2 : jsLt (JSNum.fin qi) (jq 0.10) = true
    · rw [if_pos h2]
      left
      have hz0 : 0 ≤ roundQ (qi * 100) := roundQ_nonneg (by positivity)
      have hz1 : roundQ (qi * 100) < 10 ^ 17 := by
        have : roundQ (qi * 100) ≤ 10 ^ 16 := by
          apply roundQ_le_of_le
          push_cast
          nlinarith
        omega
      obtain ⟨hdg, hne, hlen⟩ := natAbs_natStr_bound hz0 hz1 (by omega)
      have hshape : ("Raise investing to ten percent you are at ").toList ++
          pctS (.fin qi) ++ (" now.").toList =
          ("Raise investing to ten percent you are at ").toList ++
            natStr (roundQ (qi * 100)).natAbs ++
            ((" percent").toList ++ (" now.").toList) := by
        simp only [pctS, intStr_nonneg hz0, List.append_assoc]
      rw [hshape]
      apply template_hasDigit
      · decide
      · decide
      · exact fun c hc => digit_good (hdg c hc)
      · obtain ⟨c, hc⟩ := List.exists_mem_of_ne_nil _ hne
        exact ⟨c, hc, hdg c hc⟩
      · decide
      · decide
      · exact moSafe_digits_append hdg _ (by decide)
      · have hA : (("Raise investing to ten percent you are at ").toList).length = 42 := by
          decide
        have hB : (((" percent").toList ++ (" now.").toList)).length = 13 := by
          decide
        omega
    · rw [if_neg h2]
      right
      decide

theorem advice3_ok (m : Metrics) (qn : ℚ)
    (hn : m.inc = .fin qn) ( _hn0 : 0 ≤ qn) (hn2 : qn ≤ 10 ^ 12) :
    hasDigit (shortenS (sanitizeLineS ⟨adviceLine3 m⟩) 96) = true ∨
      shortenS (sanitizeLineS ⟨adviceLine3 m⟩) 96 =
        ("Track spending daily and keep the ratio at or below eighty percent.") := by
  unfold adviceLine3
  rw [hn]
  by_cases h1 : jsLt m.invest_rate (jq 0.10) = true
  · rw [if_pos h1]
    left
    have hval : jsMax (jq 1) (jsCeil (jsDiv (jsMul (orZero (JSNum.fin qn))
        (jq 0.10)) (jq 4))) =
        .fin ((max 1 ⌈qn * 0.10 / 4⌉ : ℤ) : ℚ) := by
      have h4 : ¬(4 : ℚ) = 0 := by norm_num
      simp only [orZero, jsMul, jsDiv, jq, jsCeil, jsMax, if_neg h4]
      congr 1
      push_cast
      rfl
    have hz0 : 0 ≤ (max 1 ⌈qn * 0.10 / 4⌉ : ℤ) := by
      have : (1 : ℤ) ≤ max 1 ⌈qn * 0.10 / 4⌉ := le_max_left _ _
      omega
    have hz1 : (max 1 ⌈qn * 0.10 / 4⌉ : ℤ) < 10 ^ 12 := by
      have hc : ⌈qn * 0.10 / 4⌉ ≤ 10 ^ 11 := by
        rw [Int.ceil_le]
        push_cast
        norm_num
        nlinarith
      have : max 1 ⌈qn * 0.10 / 4⌉ ≤ 10 ^ 11 := by
        apply max_le _ hc
        omega
      omega
    obtain ⟨hdg, hne, hlen⟩ := natAbs_natStr_bound hz0 hz1 (by omega)
    have hshape : ("Set an automatic transfer of ").toList ++
        numStr (jsMax (jq 1) (jsCeil (jsDiv (jsMul (orZero (JSNum.fin qn))
          (jq 0.10)) (jq 4)))) ++ (" each week.").toList =
        ("Set an automatic transfer of ").toList ++
          natStr (max 1 ⌈qn * 0.10 / 4⌉ : ℤ).natAbs ++
          (" each week.").toList := by
      rw [hval, numStr_intCast, intStr_nonneg hz0]
    rw [hshape]
    apply template_hasDigit
    · decide
    · decide
    · exact fun c hc => digit_good (hdg c hc)
    · obtain ⟨c, hc⟩ := List.exists_mem_of_ne_nil _ hne
      exact ⟨c, hc, hdg c hc⟩
    · decide
    · decide
    · exact moSafe_digits_append hdg _ (by decide)
    · have hA : (("Set an automatic transfer of ").toList).length = 29 := by decide
      have hB : ((" each week.").toList).length = 11 := by decide
      omega
  · rw [if_neg h1]
    right
    decide

/-- Amended C9, main theorem: for realistic inputs — finite non-negative
dollar amounts of at most 10^12, income at least one cent, spending zero
or at least one cent — every advice line of the local fallback either
embeds a digit or is one of the three fixed generic sentences. -/
theorem computeLocalFallback_advice_numbers (inputs : RawInputs)
    (qinc qsp qsav qinv : ℚ)
    (hinc : inputs.monthly_income = .fin qinc)
    (hinc1 : 1 / 100 ≤ qinc) (hinc2 : qinc ≤ 10 ^ 12)
    (hsp : inputs.monthly_spending = .fin qsp)
    (hsp0 : 0 ≤ qsp) (hsp2 : qsp ≤ 10 ^ 12)
    (hspc : qsp = 0 ∨ 1 / 100 ≤ qsp)
    (hsav : inputs.total_savings = .fin qsav)
    (hsav0 : 0 ≤ qsav) (hsav2 : qsav ≤ 10 ^ 12)
    (hinv : inputs.monthly_investments = .fin qinv)
    (hinv0 : 0 ≤ qinv) (hinv2 : qinv ≤ 10 ^ 12) :
    ∀ a ∈ (computeLocalFallback inputs).advice,
      hasDigit a = true ∨
        a = ("You picked a clear place to start and that is good.") ∨
        a = ("Choose one category to cut this week and stick to it.") ∨
        a = ("Track spending daily and keep the ratio at or below eighty percent.") := by
  have hq0 : (0 : ℚ) < qinc := by linarith
  have hqne : qinc ≠ 0 := ne_of_gt hq0
  have hbud : (localMetrics inputs).budget_ratio = .fin (qsp / qinc) := by
    simp [localMetrics, computeMetrics, hinc, hsp, hsav, hinv, orZero,
      jsGt, jsLt, jq, jsDiv, hq0, hqne]
  have hinvr : (localMetrics inputs).invest_rate = .fin (qinv / qinc) := by
    simp [localMetrics, computeMetrics, hinc, hsp, hsav, hinv, orZero,
      jsGt, jsLt, jq, jsDiv, hq0, hqne]
  have hincf : (localMetrics inputs).inc = .fin qinc := by
    simp [localMetrics, computeMetrics, hinc, hsp, hsav, hinv, orZero]
  have hbud2 : qsp / qinc ≤ 10 ^ 14 := by
    rw [div_le_iff₀ hq0]
    nlinarith
  have hbud0 : 0 ≤ qsp / qinc := div_nonneg hsp0 (le_of_lt hq0)
  have hinv2' : qinv / qinc ≤ 10 ^ 14 := by
    rw [div_le_iff₀ hq0]
    nlinarith
  have hinv0' : 0 ≤ qinv / qinc := div_nonneg hinv0 (le_of_lt hq0)
  have hrun : ∃ qr, (localMetrics inputs).runway_months = .fin qr ∧
      0 ≤ qr ∧ qr ≤ 10 ^ 14 := by
    rcases hspc with hq | hq
    · by_cases hsv : 0 < qsav
      · refine ⟨99.999, ?_, by norm_num, by norm_num⟩
        simp [localMetrics, computeMetrics, hinc, hsp, hsav, hinv, orZero,
          jsGt, jsLt, jq, hq, hsv]
      · refine ⟨0, ?_, le_refl 0, by norm_num⟩
        have hsv0 : qsav = 0 := le_antisymm (by linarith [not_lt.mp hsv]) hsav0
        simp [localMetrics, computeMetrics, hinc, hsp, hsav, hinv, orZero,
          jsGt, jsLt, jq, hq, hsv0]
    · have hsppos : (0 : ℚ) < qsp := by linarith
      refine ⟨qsav / qsp, ?_, div_nonneg hsav0 (le_of_lt hsppos), ?_⟩
      · simp [localMetrics, computeMetrics, hinc, hsp, hsav, hinv, orZero,
          jsGt, jsLt, jq, jsDiv, hsppos, ne_of_gt hsppos]
      · rw [div_le_iff₀ hsppos]
        nlinarith
  obtain ⟨qr, hrunf, hr0, hr1⟩ := hrun
  intro a ha
  have hadv : (computeLocalFallback inputs).advice =
      [shortenS (sanitizeLineS ⟨adviceLine1 (localMetrics inputs)⟩) 96,
        shortenS (sanitizeLineS ⟨adviceLine2 (localMetrics inputs)⟩) 96,
        shortenS (sanitizeLineS ⟨adviceLine3 (localMetrics inputs)⟩) 96] := rfl
  rw [hadv] at ha
  rcases List.mem_cons.mp ha with rfl | ha
  · rcases advice1_ok _ _ _ hbud hbud0 hrunf hr0 hr1 with h | h
    · exact Or.inl h
    · exact Or.inr (Or.inl h)
  rcases List.mem_cons.mp ha with rfl | ha
  · rcases advice2_ok _ _ _ hbud hbud2 hinvr hinv0' hinv2' with h | h
    · exact Or.inl h
    · exact Or.inr (Or.inr (Or.inl h))
  rcases List.mem_cons.mp ha with rfl | ha
  · rcases advice3_ok _ _ hincf (by linarith) hinc2 with h | h
    · exact Or.inl h
    · exact Or.inr (Or.inr (Or.inr h))
  simp at ha

/-- Witness for the amended C9 theorem at a concrete realistic input. -/
theorem computeLocalFallback_advice_numbers_witness :
    hasDigit (shortenS (sanitizeLineS
        ⟨adviceLine1 (localMetrics ⟨jq 5000, jq 3000, jq 10000, jq 2000, jq 500, jq 0⟩)⟩) 96) =
        true ∨
      shortenS (sanitizeLineS
          ⟨adviceLine1 (localMetrics ⟨jq 5000, jq 3000, jq 10000, jq 2000, jq 500, jq 0⟩)⟩) 96 =
        ("You picked a clear place to start and that is good.") ∨
      shortenS (sanitizeLineS
          ⟨adviceLine1 (localMetrics ⟨jq 5000, jq 3000, jq 10000, jq 2000, jq 500, jq 0⟩)⟩) 96 =
        ("Choose one category to cut this week and stick to it.") ∨
      shortenS (sanitizeLineS
          ⟨adviceLine1 (localMetrics ⟨jq 5000, jq 3000, jq 10000, jq 2000, jq 500, jq 0⟩)⟩) 96 =
        ("Track spending daily and keep the ratio at or below eighty percent.") :=
  computeLocalFallback_advice_numbers ⟨jq 5000, jq 3000, jq 10000, jq 2000, jq 500, jq 0⟩
    5000 3000 10000 500
    rfl (by norm_num) (by norm_num)
    rfl (by norm_num) (by norm_num) (Or.inr (by norm_num))
    rfl (by norm_num) (by norm_num)
    rfl (by norm_num) (by norm_num)
    _ (List.mem_cons_self _ _)

def c9Bad : RawInputs := ⟨jq 1000, jq 1000, jq 0, jq 0, jq 0, jq 0⟩

/-- C9 counterexample: with income 1000, spending 1000 and no savings, the
first advice line of the fallback is the generic sentence with no digit in
it, so not every advice line embeds a concrete number. -/
theorem c9_generic_first_line :
    (computeLocalFallback c9Bad).advice.head? =
        some ("You picked a clear place to start and that is good.") ∧
      hasDigit ("You picked a clear place to start and that is good.") = false := by
  constructor
  · have hm : localMetrics c9Bad =
        ⟨jq 1, jq 0, jq 0, jq 0, jq 1000, jq 1000, jq 0, jq 0⟩ := by
      norm_num [localMetrics, computeMetrics, c9Bad, orZero, jsGt, jsLt, jsDiv, jq]
    have h0 : (computeLocalFallback c9Bad).advice.head? =
        some (shortenS (sanitizeLineS ⟨adviceLine1 (localMetrics c9Bad)⟩) 96) := rfl
    rw [h0, hm]
    have h1 : adviceLine1 ⟨jq 1, jq 0, jq 0, jq 0, jq 1000, jq 1000, jq 0, jq 0⟩ =
        ("You picked a clear place to start and that is good.").toList := by
      rw [adviceLine1]
      rw [if_neg, if_neg]
      · simp only [jsGe, jsLe, jq]
        norm_num
      · simp only [jsLe, jq]
        norm_num
    rw [h1]
    decide
  · decide
